import Mathlib

/-!
# Verification of the shared-memory substrate (`hh_shared.c`)

A shallow embedding, in Lean 4, of the core data structures of
`src/hack/heap/hh_shared.c`:

* the dependency table (bindings filter + adjacency store with tag bits),
* the value store (linear-probing hash table with sentinel publication),
* the heap-entry header encoding with optional LZ4 compression,
* the compacting garbage collector,
* the `should_collect` predicate (single-precision float arithmetic).

The embedding is sequential: the C code is lock-free and its phase
discipline guarantees that the operations verified here never race, so a
CAS always succeeds in the model.  Machine integers are modelled as `Nat`
with explicit `% 2^64` where C overflow semantics matter.  Fallible code
(raised OCaml exceptions, failed C `assert`s, and non-termination of the
unbounded probe loops) is modelled with `Except`; the probe loops take an
explicit fuel, instantiated with the table size at the top level, and a
fuel-exhaustion error models an infinite C loop.

All tables are `List Nat` (raw 64-bit words) or lists of records; C's
`hash & (size - 1)` is written `hash % size` (the two agree because every
table size is a power of two).
-/

set_option maxHeartbeats 1000000

namespace HhShared

/-! ## Bit-mixing hash (`hash_uint64`) -/

/-- Byte-swap of a 64-bit word (`__builtin_bswap64`). -/
def bswap64 (n : Nat) : Nat :=
  (n % 256) * 72057594037927936 +
  (n / 256 % 256) * 281474976710656 +
  (n / 65536 % 256) * 1099511627776 +
  (n / 16777216 % 256) * 4294967296 +
  (n / 4294967296 % 256) * 16777216 +
  (n / 1099511627776 % 256) * 65536 +
  (n / 281474976710656 % 256) * 256 +
  (n / 72057594037927936 % 256)

/-- `hash_uint64` from `hh_shared.c`: multiply by the golden-ratio constant
(64-bit wrap-around) and byte-swap so the mixed high bits become the low
bits used as the starting probe slot. -/
def hash_uint64 (n : Nat) : Nat :=
  bswap64 (n * 11400714819323198485 % 18446744073709551616)

/-! ## Dependency-table slot encoding

A `deptbl` slot is a raw 64-bit word: low 32 bits are the `key` field
(31-bit `num` + 1 tag bit), high 32 bits the `next` field.
`TAG_VAL = 0`, `TAG_KEY = TAG_NEXT = 1`. -/

/-- Pack a deptbl slot from its two tagged 31-bit fields (little-endian
bit-field layout of `deptbl_entry_t`). -/
def mkDepEntry (kn kt nn nt : Nat) : Nat :=
  kn + kt * 2147483648 + nn * 4294967296 + nt * 9223372036854775808

/-- `s.key.num`: low 31 bits. -/
def depKeyNum (e : Nat) : Nat := e % 2147483648

/-- `s.key.tag`: bit 31. -/
def depKeyTag (e : Nat) : Nat := e / 2147483648 % 2

/-- `s.next.num`: bits 32..62. -/
def depNextNum (e : Nat) : Nat := e / 4294967296 % 2147483648

/-- `s.next.tag`: bit 63. -/
def depNextTag (e : Nat) : Nat := e / 9223372036854775808 % 2

/-! ## Dependency-table state and operations -/

/-- The shared-memory state of the dependency table: the bindings filter
(`deptbl_bindings`), the adjacency store (`deptbl`), the occupancy counter
(`dcounter`) and the cancellation flags read by `check_should_exit`. -/
structure DepState where
  depSize : Nat
  bindings : List Nat
  deptbl : List Nat
  dcounter : Nat
  workersShouldExit : Bool
  workerCanExit : Bool
deriving DecidableEq, Repr

/-- Failure outcomes of dependency-table operations: the `dep_table_full`
OCaml exception, a failed C `assert`, the `worker_should_exit` signal, and
fuel exhaustion (modelling an infinite probe loop). -/
inductive DepErr where
  | depTableFull
  | assertFail
  | workerExit
  | outOfFuel
deriving DecidableEq, Repr

/-- `check_should_exit`: raise `worker_should_exit` when the master set the
flag and this worker has not disabled its own cancellability. -/
def depCheckShouldExit (s : DepState) : Except DepErr Unit :=
  if s.workerCanExit && s.workersShouldExit then .error .workerExit else .ok ()

/-- Probe loop of `add_binding`: starting at `slot`, return `false` (with
the table unchanged) if the combined word `w` is already present, raise
`dep_table_full` when `dcounter >= dep_size` is observed at an unequal
slot, claim the first empty slot otherwise.  `dcounter` is constant during
the probe (sequential execution). -/
def add_binding_loop (depSize dcounter w : Nat) :
    Nat → Nat → List Nat → Except DepErr (Bool × List Nat × Nat)
  | 0, _, _ => .error .outOfFuel
  | fuel + 1, slot, bindings =>
    let sv := bindings.getD slot 0
    if sv = w then .ok (false, bindings, dcounter)
    else if depSize ≤ dcounter then .error .depTableFull
    else if sv = 0 then .ok (true, bindings.set slot w, dcounter + 1)
    else add_binding_loop depSize dcounter w fuel ((slot + 1) % depSize) bindings

/-- `add_binding`: insert the combined key/value word `w` into the bindings
filter.  Returns `true` iff the binding did not previously exist. -/
def add_binding (s : DepState) (w : Nat) : Except DepErr (Bool × DepState) :=
  match add_binding_loop s.depSize s.dcounter w s.depSize
      (hash_uint64 w % s.depSize) s.bindings with
  | .error e => .error e
  | .ok (isNew, b, dc) => .ok (isNew, { s with bindings := b, dcounter := dc })

/-- Probe loop of `alloc_deptbl_node`: claim the first empty slot and store
`node` there. -/
def alloc_deptbl_node_loop (depSize node : Nat) :
    Nat → Nat → List Nat → Except DepErr (Nat × List Nat)
  | 0, _, _ => .error .outOfFuel
  | fuel + 1, slot, dt =>
    if dt.getD slot 0 = 0 then .ok (slot, dt.set slot node)
    else alloc_deptbl_node_loop depSize node fuel ((slot + 1) % depSize) dt

/-- `alloc_deptbl_node`: allocate a linked-list cell
`{ (val, TAG_VAL), (~0, TAG_NEXT) }` in any free slot, scanning from the
hash of the combined pair.  Returns the slot number. -/
def alloc_deptbl_node (depSize key val : Nat) (dt : List Nat) :
    Except DepErr (Nat × List Nat) :=
  alloc_deptbl_node_loop depSize (mkDepEntry val 0 2147483647 1) depSize
    (hash_uint64 (key * 2147483648 + val) % depSize) dt

/-- Probe loop of `prepend_to_deptbl_list`: on an empty slot install a new
head `{ (key, TAG_KEY), (val, TAG_VAL) }`; on the head for `key`, allocate
a cell, point the cell's `next` at whatever the head pointed to, and
repoint the head at the cell; otherwise keep probing.  The CAS retries of
the concurrent code always succeed here (sequential execution). -/
def prepend_loop (depSize key val : Nat) :
    Nat → Nat → List Nat → Except DepErr (List Nat)
  | 0, _, _ => .error .outOfFuel
  | fuel + 1, slot, dt =>
    let sv := dt.getD slot 0
    if sv = 0 then .ok (dt.set slot (mkDepEntry key 1 val 0))
    else if depKeyNum sv = key ∧ depKeyTag sv = 1 then
      match alloc_deptbl_node depSize key val dt with
      | .error e => .error e
      | .ok (ls, dt1) =>
        let dt2 := dt1.set ls (mkDepEntry val 0 (depNextNum sv) (depNextTag sv))
        .ok (dt2.set slot (mkDepEntry key 1 ls 1))
    else prepend_loop depSize key val fuel ((slot + 1) % depSize) dt

/-- `prepend_to_deptbl_list`: prepend `val` to the list of values of `key`
(assumes the bindings filter reported the pair as new). -/
def prepend_to_deptbl_list (s : DepState) (key val : Nat) : Except DepErr DepState :=
  match prepend_loop s.depSize key val s.depSize (hash_uint64 key % s.depSize) s.deptbl with
  | .error e => .error e
  | .ok dt => .ok { s with deptbl := dt }

/-- `add_dep`: record an edge `key → val`.  Both must be 31-bit integers
(C `assert`); the adjacency store is touched only when the bindings filter
reports the pair as new. -/
def add_dep (s : DepState) (key val : Nat) : Except DepErr DepState :=
  if key < 2147483648 ∧ val < 2147483648 then
    match add_binding s (key * 2147483648 + val) with
    | .error e => .error e
    | .ok (true, s1) => prepend_to_deptbl_list s1 key val
    | .ok (false, s1) => .ok s1
  else .error .assertFail

/-- `hh_add_dep`: the entry point called from OCaml; polls
`check_should_exit`, splits the combined word into the 31-bit `key` and
`val` (here received already split) and calls `add_dep`. -/
def hh_add_dep (s : DepState) (key val : Nat) : Except DepErr DepState :=
  match depCheckShouldExit s with
  | .error e => .error e
  | .ok _ => add_dep s key val

/-- Inner walk of `hh_get_dep`: follow `next` fields while they carry
`TAG_NEXT`, prepending each visited cell's `key.num` to the result, and
finally prepend the terminal value.  The C `assert(next.num < dep_size)`
is modelled as a possible assertion failure. -/
def dep_walk_loop (depSize : Nat) (dt : List Nat) :
    Nat → Nat → List Nat → Except DepErr (List Nat)
  | 0, _, _ => .error .outOfFuel
  | fuel + 1, e, acc =>
    if depNextTag e = 1 then
      if depNextNum e < depSize then
        let e2 := dt.getD (depNextNum e) 0
        dep_walk_loop depSize dt fuel e2 (depKeyNum e2 :: acc)
      else .error .assertFail
    else .ok (depNextNum e :: acc)

/-- Probe loop of `hh_get_dep`: stop with `[]` at an empty slot, walk the
list at the head for `key`, keep probing otherwise. -/
def hh_get_dep_loop (depSize key : Nat) (dt : List Nat) :
    Nat → Nat → Except DepErr (List Nat)
  | 0, _ => .error .outOfFuel
  | fuel + 1, slot =>
    let sv := dt.getD slot 0
    if sv = 0 then .ok []
    else if depKeyNum sv = key ∧ depKeyTag sv = 1 then
      dep_walk_loop depSize dt depSize sv []
    else hh_get_dep_loop depSize key dt fuel ((slot + 1) % depSize)

/-- `hh_get_dep`: return the list of values bound to `key` (the C code
builds an OCaml list by prepending, so the result comes out in insertion
order).  The caller must pass a 31-bit key (C `assert`). -/
def hh_get_dep (s : DepState) (key : Nat) : Except DepErr (List Nat) :=
  match depCheckShouldExit s with
  | .error e => .error e
  | .ok _ =>
    if key < 2147483648 then
      hh_get_dep_loop s.depSize key s.deptbl s.depSize (hash_uint64 key % s.depSize)
    else .error .assertFail

/-- `hh_get_in_memory_dep_table_entry_count`: reads `dcounter`. -/
def hh_get_in_memory_dep_table_entry_count (s : DepState) : Nat := s.dcounter

/-- `kill_dep_used_slots`: `memset` both dependency hashtables to zero
(the counters are not touched). -/
def kill_dep_used_slots (s : DepState) : DepState :=
  { s with deptbl := List.replicate s.deptbl.length 0,
           bindings := List.replicate s.bindings.length 0 }

/-- Shared-memory effect of `hh_save_dep_table_helper` (and hence of
`hh_save_dep_table_sqlite` / `hh_update_dep_table_sqlite`): the SQLite
writes go to an external database and the iteration over `deptbl` only
reads it; the sole mutation of the shared state is `hh_swap_in_db`, which
runs `kill_dep_used_slots` exactly when `replace_state_after_saving` is
set. -/
def hh_save_dep_table_state (s : DepState) (replaceStateAfterSaving : Bool) : DepState :=
  if replaceStateAfterSaving then kill_dep_used_slots s else s

/-- A freshly initialised dependency table with `2^k` slots (sizes are
always powers of two), as set up by `hh_shared_init`. -/
def depInit (k : Nat) : DepState :=
  { depSize := 2 ^ k
    bindings := List.replicate (2 ^ k) 0
    deptbl := List.replicate (2 ^ k) 0
    dcounter := 0
    workersShouldExit := false
    workerCanExit := true }

/-- Run a sequence of `hh_add_dep` calls in order (the sequential phases
of the claims). -/
def runAddEdges (s : DepState) : List (Nat × Nat) → Except DepErr DepState
  | [] => .ok s
  | (u, v) :: rest =>
    match hh_add_dep s u v with
    | .error e => .error e
    | .ok s1 => runAddEdges s1 rest

/-! ## Value store: heap-entry headers

A heap entry starts with a 64-bit header: bits 63..33 the stored payload
size, bit 32 the kind (`KIND_STRING = 1`, `KIND_SERIALIZED = 0`), bits
31..1 the uncompressed size (0 when stored uncompressed), bit 0 always 1
(header/pointer discrimination during GC). -/

/-- Pack a heap-entry header (`size << 33 | kind << 32 | usize << 1 | 1`). -/
def mkHeader (size kind usize : Nat) : Nat :=
  size * 8589934592 + kind * 4294967296 + usize * 2 + 1

/-- `Entry_size`: bits 63..33. -/
def entrySize (h : Nat) : Nat := h / 8589934592

/-- `Entry_kind`: bit 32. -/
def entryKind (h : Nat) : Nat := h / 4294967296 % 2

/-- `Entry_uncompressed_size`: bits 31..1. -/
def entryUncompressedSize (h : Nat) : Nat := h / 2 % 2147483648

/-- `Heap_entry_total_size`: the 8 header bytes plus the stored payload. -/
def heapEntryTotalSize (h : Nat) : Nat := 8 + entrySize h

/-- `ALIGNED(Heap_entry_total_size h)`: round up to the 64-byte cache
line, the allocation granule of `hh_alloc`. -/
def alignedSize (h : Nat) : Nat := (heapEntryTotalSize h + 63) / 64 * 64

/-! ## Value store: state -/

/-- A value-store slot address: `NULL`, the in-progress sentinel
(`HASHTBL_WRITE_IN_PROGRESS`, raw value 1), or a pointer to a heap entry,
represented by its byte offset from `heap_init`. -/
inductive Addr where
  | null
  | sentinel
  | ptr (off : Nat)
deriving DecidableEq, Repr

/-- One cell of the value hashtable (`helt_t`). -/
structure Helt where
  hash : Nat
  addr : Addr
deriving DecidableEq, Repr

/-- A heap entry: its header word and payload bytes.  The heap is the
list of entries in allocation (= address) order; an entry's address is
the sum of the aligned sizes of the entries before it. -/
structure HeapBlock where
  header : Nat
  data : List Nat
deriving DecidableEq, Repr

/-- The shared-memory state of the value store: table, heap, counters and
the phase/identity flags the C `assert`s read. -/
structure VState where
  hashtblSize : Nat
  hashtbl : List Helt
  heap : List HeapBlock
  heapMax : Nat
  hcounter : Nat
  wasted : Nat
  isMaster : Bool
  allowRemoves : Bool
  allowWrites : Bool
  workersShouldExit : Bool
  workerCanExit : Bool
deriving DecidableEq, Repr

/-- Failure outcomes of value-store operations: the `hash_table_full` and
`heap_full` OCaml exceptions, a failed C `assert`, cooperative
cancellation, the fatal 60-second stuck-write timeout of `hh_mem_inner`,
and the `caml_input_value` path for serialized (non-string) entries,
which is outside this embedding. -/
inductive VErr where
  | hashTableFull
  | heapFull
  | assertFail
  | workerExit
  | stuckWrite
  | externalDeserialize
deriving DecidableEq, Repr

/-- Read a hashtable slot (out-of-range reads never happen in the C code;
the default keeps the function total). -/
def heltD (l : List Helt) (i : Nat) : Helt := l.getD i ⟨0, Addr.null⟩

/-- `check_should_exit` for value-store entry points. -/
def vCheckShouldExit (s : VState) : Except VErr Unit :=
  if s.workerCanExit && s.workersShouldExit then .error .workerExit else .ok ()

/-- `used_heap_size()` = `*heap - heap_init`: the bump pointer equals the
sum of the aligned sizes of all allocated entries. -/
def usedHeapSize (s : VState) : Nat :=
  (s.heap.map (fun b => alignedSize b.header)).sum

/-- Look up the heap entry starting at byte offset `target`, scanning the
entries from byte offset `cur`. -/
def blockAtFrom : List HeapBlock → Nat → Nat → Option HeapBlock
  | [], _, _ => none
  | b :: rest, cur, target =>
    if cur = target then some b
    else blockAtFrom rest (cur + alignedSize b.header) target

/-- Look up the heap entry starting at byte offset `target`. -/
def blockAt (heap : List HeapBlock) (target : Nat) : Option HeapBlock :=
  blockAtFrom heap 0 target

/-- The list of valid entry start offsets, scanning from `cur`. -/
def heapOffsetsFrom : List HeapBlock → Nat → List Nat
  | [], _ => []
  | b :: rest, cur => cur :: heapOffsetsFrom rest (cur + alignedSize b.header)

/-- The list of valid heap entry start offsets. -/
def heapOffsets (heap : List HeapBlock) : List Nat := heapOffsetsFrom heap 0

/-! ## Value store: serialization and compression

`hh_store_ocaml` serializes non-string OCaml values with
`caml_output_value_to_malloc` and compresses with `LZ4_compress_default`.
The claims concern byte blobs (OCaml strings, `KIND_STRING`), so values
are byte lists here.  LZ4 is an external library: it is a parameter pair
`compress`/`decompress`, where `compress b = none` models
`LZ4_compress_default` returning 0 (failure) and
`decompress payload cap` models `LZ4_decompress_safe(src, dst, size, cap)`
(`none` = negative return). -/

/-- An LZ4 implementation, as seen by `hh_shared.c`. -/
structure Lz4 where
  compress : List Nat → Option (List Nat)
  decompress : List Nat → Nat → Option (List Nat)

/-- `hh_store_ocaml` on a byte blob: enforce the 2 GiB `assert`, try LZ4,
store compressed only when the compressed size is nonzero and strictly
smaller, and build the header.  Returns
`(header, payload, alloc_size, orig_size)`. -/
def hh_store_ocaml (lz : Lz4) (b : List Nat) :
    Except VErr (Nat × List Nat × Nat × Nat) :=
  if b.length < 2147483648 then
    match lz.compress b with
    | some cd =>
      if cd.length ≠ 0 ∧ cd.length < b.length then
        .ok (mkHeader cd.length 1 b.length, cd, cd.length, b.length)
      else .ok (mkHeader b.length 1 0, b, b.length, b.length)
    | none => .ok (mkHeader b.length 1 0, b, b.length, b.length)
  else .error .assertFail

/-- `hh_alloc`: bump-allocate an aligned chunk, raising `heap_full` when
it would overrun `heap_max`.  Returns the new state and the entry's byte
offset. -/
def hh_alloc (s : VState) (header : Nat) (payload : List Nat) :
    Except VErr (VState × Nat) :=
  if usedHeapSize s + alignedSize header ≤ s.heapMax then
    .ok ({ s with heap := s.heap ++ [⟨header, payload⟩] }, usedHeapSize s)
  else .error .heapFull

/-- `write_at`: CAS the slot's `addr` from `NULL` to the in-progress
sentinel; the winner checks the per-process write permission, stores the
value and publishes the entry address; the loser returns `none`
(the C `(Min_long, Min_long)` pair).  Sequentially the sentinel phase
collapses into the final publication. -/
def write_at (lz : Lz4) (s : VState) (slot : Nat) (b : List Nat) :
    Except VErr (VState × Option (Nat × Nat)) :=
  if (heltD s.hashtbl slot).addr = Addr.null then
    if s.allowWrites then
      match hh_store_ocaml lz b with
      | .error e => .error e
      | .ok (header, payload, allocSz, origSz) =>
        match hh_alloc s header payload with
        | .error e => .error e
        | .ok (s1, off) =>
          .ok ({ s1 with
                 hashtbl := s1.hashtbl.set slot ⟨(heltD s1.hashtbl slot).hash, Addr.ptr off⟩ },
               some (allocSz, origSz))
    else .error .assertFail
  else .ok (s, none)

/-- Probe loop of `hh_add`: write at the slot already carrying this hash;
raise `hash_table_full` when `hcounter >= hashtbl_size`; claim an empty
slot (incrementing `hcounter`) and write there; otherwise continue.  The
countdown models the C wrap-around check against `init_slot`. -/
def hh_add_loop (lz : Lz4) (hash : Nat) (b : List Nat) :
    Nat → Nat → VState → Except VErr (VState × Option (Nat × Nat))
  | 0, _, _ => .error .hashTableFull
  | n + 1, slot, s =>
    let sh := (heltD s.hashtbl slot).hash
    if sh = hash then write_at lz s slot b
    else if s.hashtblSize ≤ s.hcounter then .error .hashTableFull
    else if sh = 0 then
      write_at lz
        { s with hashtbl := s.hashtbl.set slot { heltD s.hashtbl slot with hash := hash },
                 hcounter := s.hcounter + 1 }
        slot b
    else hh_add_loop lz hash b n ((slot + 1) % s.hashtblSize) s

/-- `hh_add`: add a key/value pair.  The key's first 8 bytes (an MD5
prefix in the caller) are the slot hash; keys are represented by that
hash.  Returns `some (alloc_size, orig_size)` when this call's write won,
`none` when a concurrent writer already had. -/
def hh_add (lz : Lz4) (s : VState) (hash : Nat) (b : List Nat) :
    Except VErr (VState × Option (Nat × Nat)) :=
  match vCheckShouldExit s with
  | .error e => .error e
  | .ok _ => hh_add_loop lz hash b s.hashtblSize (hash % s.hashtblSize) s

/-- Probe loop of `find_slot`: return the first slot whose hash equals
the key's hash or is empty; raise `hash_table_full` after wrapping
around. -/
def find_slot_loop (hash : Nat) (tbl : List Helt) (size : Nat) :
    Nat → Nat → Except VErr Nat
  | 0, _ => .error .hashTableFull
  | n + 1, slot =>
    let sh := (heltD tbl slot).hash
    if sh = hash then .ok slot
    else if sh = 0 then .ok slot
    else find_slot_loop hash tbl size n ((slot + 1) % size)

/-- `find_slot`: the slot corresponding to a key — either free or holding
the key's hash. -/
def find_slot (s : VState) (hash : Nat) : Except VErr Nat :=
  find_slot_loop hash s.hashtbl s.hashtblSize s.hashtblSize (hash % s.hashtblSize)

/-- The three outcomes of `hh_mem_inner` / `hh_mem_status`
(`1`, `-1`, `-2` in C). -/
inductive MemStatus where
  | present
  | absentNeverWritten
  | absentRemoved
deriving DecidableEq, Repr

/-- `hh_mem_inner`: `present` for a matching hash with a real address,
`absentRemoved` for a matching hash with `NULL` (explicitly deleted),
`absentNeverWritten` otherwise.  A slot stuck at the in-progress sentinel
makes the C code spin and, after 60 seconds, die with a fatal error —
sequentially the sentinel can never resolve, so it maps to that fatal
outcome. -/
def hh_mem_inner (s : VState) (hash : Nat) : Except VErr MemStatus :=
  match vCheckShouldExit s with
  | .error e => .error e
  | .ok _ =>
    match find_slot s hash with
    | .error e => .error e
    | .ok slot =>
      let e := heltD s.hashtbl slot
      if e.hash = hash ∧ e.addr ≠ Addr.null then
        if e.addr = Addr.sentinel then .error .stuckWrite else .ok .present
      else if e.hash = hash then .ok .absentRemoved
      else .ok .absentNeverWritten

/-- `hh_deserialize`: decompress when the header records a nonzero
uncompressed size (the C code `assert`s the decompressed length matches),
then return the bytes for `KIND_STRING`; `KIND_SERIALIZED` hands off to
the external OCaml unmarshaller. -/
def hh_deserialize (lz : Lz4) (blk : HeapBlock) : Except VErr (List Nat) :=
  if entryUncompressedSize blk.header ≠ 0 then
    match lz.decompress blk.data (entryUncompressedSize blk.header) with
    | some d =>
      if d.length = entryUncompressedSize blk.header then
        if entryKind blk.header = 1 then .ok d else .error .externalDeserialize
      else .error .assertFail
    | none => .error .assertFail
  else
    if entryKind blk.header = 1 then .ok blk.data else .error .externalDeserialize

/-- `hh_get_and_deserialize`: find the key's slot (the key must be
present: C `assert`s the hash matches) and deserialize the entry its
address points to. -/
def hh_get_and_deserialize (lz : Lz4) (s : VState) (hash : Nat) :
    Except VErr (List Nat) :=
  match vCheckShouldExit s with
  | .error e => .error e
  | .ok _ =>
    match find_slot s hash with
    | .error e => .error e
    | .ok slot =>
      if (heltD s.hashtbl slot).hash = hash then
        match (heltD s.hashtbl slot).addr with
        | Addr.ptr off =>
          match blockAt s.heap off with
          | some blk => hh_deserialize lz blk
          | none => .error .assertFail
        | _ => .error .assertFail
      else .error .assertFail

/-- `hh_remove`: master-only, gated by `allow_removes`; `NULL` the `addr`
(the hash stays, preserving probe chains) and account the entry's aligned
size in `wasted_heap_size`. -/
def hh_remove (s : VState) (hash : Nat) : Except VErr VState :=
  match find_slot s hash with
  | .error e => .error e
  | .ok slot =>
    if s.isMaster then
      if s.allowRemoves then
        if (heltD s.hashtbl slot).hash = hash then
          match (heltD s.hashtbl slot).addr with
          | Addr.ptr off =>
            match blockAt s.heap off with
            | some blk =>
              .ok { s with
                wasted := s.wasted + alignedSize blk.header,
                hashtbl := s.hashtbl.set slot
                  { heltD s.hashtbl slot with addr := Addr.null } }
            | none => .error .assertFail
          | _ => .error .assertFail
        else .error .assertFail
      else .error .assertFail
    else .error .assertFail

/-- `hh_move`: master-only, gated by `allow_removes` (checked in this
order after the two `find_slot`s); requires the source hash to match and
the destination `addr` to be `NULL`; bumps `hcounter` exactly when the
destination slot's hash was zero; writes destination hash and address,
then `NULL`s the source address. -/
def hh_move (s : VState) (hash1 hash2 : Nat) : Except VErr VState :=
  match find_slot s hash1 with
  | .error e => .error e
  | .ok slot1 =>
    match find_slot s hash2 with
    | .error e => .error e
    | .ok slot2 =>
      if s.isMaster then
        if s.allowRemoves then
          if (heltD s.hashtbl slot1).hash = hash1 then
            if (heltD s.hashtbl slot2).addr = Addr.null then
              let s1 := if (heltD s.hashtbl slot2).hash = 0
                        then { s with hcounter := s.hcounter + 1 } else s
              let t1 := s1.hashtbl.set slot2
                { hash := hash2, addr := (heltD s1.hashtbl slot1).addr }
              let t2 := t1.set slot1 { heltD t1 slot1 with addr := Addr.null }
              .ok { s1 with hashtbl := t2 }
            else .error .assertFail
          else .error .assertFail
        else .error .assertFail
      else .error .assertFail

/-- A freshly initialised value store with `2^k` slots and `heapMax`
bytes of heap, with the given identity/phase flags. -/
def vInit (k : Nat) (heapMax : Nat) (master removes : Bool) : VState :=
  { hashtblSize := 2 ^ k
    hashtbl := List.replicate (2 ^ k) ⟨0, Addr.null⟩
    heap := []
    heapMax := heapMax
    hcounter := 0
    wasted := 0
    isMaster := master
    allowRemoves := removes
    allowWrites := true
    workersShouldExit := false
    workerCanExit := true }

/-! ## `should_collect`: single-precision arithmetic

`should_collect` computes `used >= (size_t)(space_overhead * reachable)`
where `space_overhead` is a C `float`.  The multiplication converts
`reachable` to binary32 (24-bit significand, round to nearest, ties to
even) and rounds the product the same way, so the comparison is *not*
exact integer arithmetic once `reachable` exceeds `2^24`.  Nonnegative
dyadic values `mant / 2^exp` model the floats exactly; exponent overflow
is unreachable at heap sizes. -/

/-- Number of binary digits, with enough fuel for 64-bit values
(structural recursion keeps kernel reduction available). -/
def bitLenAux : Nat → Nat → Nat
  | 0, _ => 0
  | fuel + 1, n => if n = 0 then 0 else bitLenAux fuel (n / 2) + 1

/-- Number of binary digits of a 64-bit value `n`. -/
def bitLen (n : Nat) : Nat := bitLenAux 64 n

/-- Round `a / 2^sh` to the nearest integer, ties to even. -/
def roundNearestEven (a sh : Nat) : Nat :=
  let q := a / 2 ^ sh
  let r := a % 2 ^ sh
  let half := 2 ^ sh / 2
  if sh = 0 then a
  else if half < r ∨ (r = half ∧ q % 2 = 1) then q + 1 else q

/-- A nonnegative binary32 value `mant / 2^exp` (not kept normalised; the
rounding step only trims the significand to 24 bits). -/
structure F32 where
  mant : Nat
  exp : Nat
deriving DecidableEq, Repr

/-- Round the dyadic value `a / 2^e` to single precision. -/
def f32Round (a e : Nat) : F32 :=
  if bitLen a ≤ 24 then ⟨a, e⟩
  else
    let sh := bitLen a - 24
    ⟨roundNearestEven a sh * 2 ^ sh, e⟩

/-- The C conversion `(float)n` of a `size_t`. -/
def f32OfNat (n : Nat) : F32 := f32Round n 0

/-- Single-precision multiplication: exact product, one rounding. -/
def f32Mul (x y : F32) : F32 := f32Round (x.mant * y.mant) (x.exp + y.exp)

/-- The C cast `(size_t)f` of a nonnegative float (truncation). -/
def f32Trunc (f : F32) : Nat := f.mant / 2 ^ f.exp

/-- The C `float` literal `2.0` (exact). -/
def f32Two : F32 := ⟨2, 0⟩

/-- The C `float` literal `1.2`: binary32 has no exact 6/5; the nearest
representable value is `10066330 / 2^23`. -/
def f32OnePointTwo : F32 := ⟨10066330, 23⟩

/-- `should_collect`: `used >= (size_t)(space_overhead * reachable)` with
`reachable = used - wasted` and `space_overhead` 2.0, or 1.2 when
aggressive, computed in single precision. -/
def should_collect (aggressive : Bool) (used wasted : Nat) : Bool :=
  let spaceOverhead := if aggressive then f32OnePointTwo else f32Two
  let reachable := used - wasted
  decide (f32Trunc (f32Mul spaceOverhead (f32OfNat reachable)) ≤ used)

/-! ## The compacting collector (`hh_collect`)

The C collector runs two passes over raw memory: a marking pass that
swaps each pointed-to entry's header with a back-pointer to its
hashtable slot (exploiting header bit 0 = 1 vs. word-aligned pointers),
and a sweep that walks the heap bottom-up, relocating every marked entry
to the destination cursor and restoring its header.  At the block level
the same algorithm reads: an entry is live iff some slot points at it;
live entries slide down in address order; each pointing slot is updated
to the entry's relocated offset.  (The two-pass pointer swap is only
meaningful when the pointing slot is unique, which the well-formedness
hypothesis `VWF` of the theorems guarantees.) -/

/-- Does some hashtable slot point at heap offset `off`?  This is what
the marking pass records. -/
def isLive (tbl : List Helt) (off : Nat) : Bool :=
  tbl.any (fun e => e.addr == Addr.ptr off)

/-- Sweep pass: walk the heap bottom-up with source and destination
cursors, keeping live entries and recording the relocation map.  Returns
the compacted heap, the map of old offset to new offset, and the final
destination cursor (the new `heap_top`). -/
def gcSweep (tbl : List Helt) :
    List HeapBlock → Nat → Nat → (List HeapBlock × List (Nat × Nat) × Nat)
  | [], _, dst => ([], [], dst)
  | b :: rest, src, dst =>
    let sz := alignedSize b.header
    if isLive tbl src then
      let (hs, m, fin) := gcSweep tbl rest (src + sz) (dst + sz)
      (b :: hs, (src, dst) :: m, fin)
    else gcSweep tbl rest (src + sz) dst

/-- Rewrite one slot address through the relocation map (the C code does
this by following the back-pointer stored where the header was). -/
def remapAddr (m : List (Nat × Nat)) : Addr → Addr
  | Addr.ptr off => Addr.ptr ((m.lookup off).getD 0)
  | a => a

/-- `hh_collect`: master-only, gated by `allow_removes`; do nothing unless
`should_collect`; `assert` that no write is in progress; then compact the
heap, rewrite the live slot addresses, and reset `wasted_heap_size`. -/
def hh_collect (aggressive : Bool) (s : VState) : Except VErr VState :=
  if s.isMaster then
    if s.allowRemoves then
      if should_collect aggressive (usedHeapSize s) s.wasted then
        if s.hashtbl.any (fun e => e.addr == Addr.sentinel) then .error .assertFail
        else
          .ok { s with
            heap := (gcSweep s.hashtbl s.heap 0 0).1,
            hashtbl := s.hashtbl.map (fun e => { e with
              addr := remapAddr (gcSweep s.hashtbl s.heap 0 0).2.1 e.addr }),
            wasted := 0 }
      else .ok s
    else .error .assertFail
  else .error .assertFail

/-- The offsets the hashtable points at (with multiplicity). -/
def liveOffsets (s : VState) : List Nat :=
  s.hashtbl.filterMap (fun e => match e.addr with
    | Addr.ptr off => some off
    | _ => none)

/-- Total aligned size of the entries the hashtable points at. -/
def liveAlignedSum (s : VState) : Nat :=
  ((liveOffsets s).map (fun off => match blockAt s.heap off with
    | some blk => alignedSize blk.header
    | none => 0)).sum

/-! ## Well-formedness and invariants used by the theorems -/

/-- Well-formedness of a value-store state: the table has its declared
size, every stored address is a valid entry offset, and no two slots point
at the same entry (each `hh_add` allocates a fresh entry and `hh_move`
clears its source, so this holds in every reachable state; the GC marking
pass is only meaningful under it). -/
structure VWF (s : VState) : Prop where
  len : s.hashtbl.length = s.hashtblSize
  addrsValid : ∀ i < s.hashtblSize, ∀ off,
    (heltD s.hashtbl i).addr = Addr.ptr off → off ∈ heapOffsets s.heap
  addrsDistinct : (liveOffsets s).Nodup

/-- The occupancy invariant of the value store: `hcounter` counts the
slots whose hash is nonzero. -/
def hcountInv (s : VState) : Prop :=
  s.hcounter = s.hashtbl.countP (fun e => decide (e.hash ≠ 0))

/-- Read a raw slot of a `List Nat` table (0 beyond the end; all probes
stay in range). -/
def slotGet (l : List Nat) (i : Nat) : Nat := l.getD i 0

/-- Linear-probe reachability: slot `j` is `t` steps from probe start `h`
(mod `n`) and every slot strictly before it on the probe sequence is
nonzero.  Insertions claim the first zero slot, and slots never return to
zero, so this is invariant. -/
def ProbePath (l : List Nat) (n h j : Nat) : Prop :=
  ∃ t, t < n ∧ (h + t) % n = j ∧ ∀ t' < t, slotGet l ((h + t') % n) ≠ 0

/-- `chainOK dt nn nt cs vs`: starting from a `next` field with number
`nn` and tag `nt`, the linked-list cells at slots `cs` hold exactly the
values `vs` (in walk order; the last value is stored inline in the final
`next` field with `TAG_VAL`). -/
def chainOK (dt : List Nat) : Nat → Nat → List Nat → List Nat → Prop
  | nn, nt, [], vs => nt = 0 ∧ vs = [nn]
  | nn, nt, c :: cs, vs =>
    nt = 1 ∧ nn = c ∧
    match vs with
    | [] => False
    | v :: vs' =>
      depKeyNum (slotGet dt c) = v ∧ depKeyTag (slotGet dt c) = 0 ∧
      chainOK dt (depNextNum (slotGet dt c)) (depNextTag (slotGet dt c)) cs vs'

/-- Ghost description of one key's structure in the adjacency store: its
head slot, its list-cell slots and its values, both in walk order. -/
structure GEntry where
  headSlot : Nat
  cells : List Nat
  vals : List Nat

/-- The slots a ghost entry occupies. -/
def GEntry.slots (g : GEntry) : List Nat := g.headSlot :: g.cells

/-- Ghost decomposition of the adjacency store `dt` for the edge list
`E`: one structure per key with an edge, disjoint nonzero slots, heads
reachable by linear probing, and every nonzero slot accounted for. -/
structure DeptblG (depSize : Nat) (dt : List Nat) (E : List (Nat × Nat))
    (G : Nat → Option GEntry) : Prop where
  keysMem : ∀ u, (G u).isSome ↔ ∃ v, (u, v) ∈ E
  headLt : ∀ u g, G u = some g → g.headSlot < depSize
  cellsLt : ∀ u g, G u = some g → ∀ c ∈ g.cells, c < depSize
  headKey : ∀ u g, G u = some g → depKeyNum (slotGet dt g.headSlot) = u ∧
    depKeyTag (slotGet dt g.headSlot) = 1
  chain : ∀ u g, G u = some g → chainOK dt (depNextNum (slotGet dt g.headSlot))
    (depNextTag (slotGet dt g.headSlot)) g.cells g.vals
  valsMem : ∀ u g, G u = some g → ∀ v, v ∈ g.vals ↔ (u, v) ∈ E
  valsNodup : ∀ u g, G u = some g → g.vals.Nodup
  slotsNodup : ∀ u g, G u = some g → g.slots.Nodup
  slotsDisj : ∀ u u' g g', u ≠ u' → G u = some g → G u' = some g' →
    ∀ c ∈ g.slots, c ∉ g'.slots
  slotsNonzero : ∀ u g, G u = some g → ∀ c ∈ g.slots, slotGet dt c ≠ 0
  complete : ∀ i < depSize, slotGet dt i ≠ 0 →
    ∃ u g, G u = some g ∧ i ∈ g.slots
  headPath : ∀ u g, G u = some g →
    ProbePath dt depSize (hash_uint64 u % depSize) g.headSlot

/-- The full dependency-table invariant tying a state to the list `E` of
distinct successfully recorded edges. -/
structure DepInv (s : DepState) (E : List (Nat × Nat)) : Prop where
  sizePos : 0 < s.depSize
  sizeLe : s.depSize ≤ 2147483648
  lenB : s.bindings.length = s.depSize
  lenD : s.deptbl.length = s.depSize
  dcount : s.dcounter = E.length
  edgesValid : ∀ p ∈ E, p.1 < 2147483648 ∧ p.2 < 2147483648 ∧ p ≠ (0, 0)
  combNodup : (E.map (fun p => p.1 * 2147483648 + p.2)).Nodup
  bindMem : ∀ w, w ≠ 0 →
    ((∃ i, i < s.depSize ∧ slotGet s.bindings i = w) ↔
      ∃ p ∈ E, p.1 * 2147483648 + p.2 = w)
  bindAtMostOnce : ∀ i, i < s.depSize → ∀ j, j < s.depSize →
    slotGet s.bindings i ≠ 0 → slotGet s.bindings i = slotGet s.bindings j → i = j
  bindPath : ∀ j, j < s.depSize → slotGet s.bindings j ≠ 0 →
    ProbePath s.bindings s.depSize
      (hash_uint64 (slotGet s.bindings j) % s.depSize) j
  deptblOK : ∃ G, DeptblG s.depSize s.deptbl E G

/-- An LZ4 implementation whose `compress` always reports failure, so
every entry is stored uncompressed (used for concrete scenarios). -/
def lzNone : Lz4 := ⟨fun _ => none, fun _ _ => none⟩

/-- The "removed vs never-written" scenario: `put(k, v); remove(k)` on a
fresh master store (key hash 5). -/
def c4Scenario : Except VErr VState :=
  match hh_add lzNone (vInit 2 1000 true true) 5 [1, 2] with
  | .error e => .error e
  | .ok (s1, _) => hh_remove s1 5

/-- A two-slot master store holding key hash 5 at its home slot (used by
the C8 witness and counterexample). -/
def c8Base : VState :=
  { hashtblSize := 2
    hashtbl := [⟨0, Addr.null⟩, ⟨5, Addr.ptr 0⟩]
    heap := [⟨mkHeader 1 1 0, [9]⟩]
    heapMax := 1000
    hcounter := 1
    wasted := 0
    isMaster := true
    allowRemoves := true
    allowWrites := true
    workersShouldExit := false
    workerCanExit := true }

/-- `c8Base` after `hh_add` of key hash 7 with value `[2, 3]`. -/
def c8AfterAdd : VState :=
  { hashtblSize := 2
    hashtbl := [⟨7, Addr.ptr 64⟩, ⟨5, Addr.ptr 0⟩]
    heap := [⟨12884901889, [9]⟩, ⟨21474836481, [2, 3]⟩]
    heapMax := 1000
    hcounter := 2
    wasted := 0
    isMaster := true
    allowRemoves := true
    allowWrites := true
    workersShouldExit := false
    workerCanExit := true }

/-- `c8Base` after `hh_move` of key hash 5 onto key hash 6. -/
def c8AfterMove : VState :=
  { hashtblSize := 2
    hashtbl := [⟨6, Addr.ptr 0⟩, ⟨5, Addr.null⟩]
    heap := [⟨12884901889, [9]⟩]
    heapMax := 1000
    hcounter := 2
    wasted := 0
    isMaster := true
    allowRemoves := true
    allowWrites := true
    workersShouldExit := false
    workerCanExit := true }

/-- `c8Base` after `hh_remove` of key hash 5. -/
def c8AfterRemove : VState :=
  { hashtblSize := 2
    hashtbl := [⟨0, Addr.null⟩, ⟨5, Addr.null⟩]
    heap := [⟨12884901889, [9]⟩]
    heapMax := 1000
    hcounter := 1
    wasted := 64
    isMaster := true
    allowRemoves := true
    allowWrites := true
    workersShouldExit := false
    workerCanExit := true }

/-- `c8Base` after `hh_move` of key hash 5 onto key hash 0:
`hcounter` reads 2 but only one slot has a nonzero hash. -/
def c8MoveZero : VState :=
  { hashtblSize := 2
    hashtbl := [⟨0, Addr.ptr 0⟩, ⟨5, Addr.null⟩]
    heap := [⟨12884901889, [9]⟩]
    heapMax := 1000
    hcounter := 2
    wasted := 0
    isMaster := true
    allowRemoves := true
    allowWrites := true
    workersShouldExit := false
    workerCanExit := true }

/-- The state produced by `hh_add` of key hash 5, value `[1, 2, 3]` on a
fresh 4-slot store (C1 witness). -/
def c1After : VState :=
  { hashtblSize := 4
    hashtbl := [⟨0, Addr.null⟩, ⟨5, Addr.ptr 0⟩, ⟨0, Addr.null⟩, ⟨0, Addr.null⟩]
    heap := [⟨30064771073, [1, 2, 3]⟩]
    heapMax := 1000
    hcounter := 1
    wasted := 0
    isMaster := false
    allowRemoves := false
    allowWrites := true
    workersShouldExit := false
    workerCanExit := true }

/-- A master store with three 64-byte-aligned entries, the middle one
removed (`wasted = 64`): usage 192 is below twice the reachable 128, so
`should_collect` is false and `hh_collect` leaves the state — wasted
bytes included — untouched (C3 counterexample). -/
def c3Cex : VState :=
  { hashtblSize := 4
    hashtbl := [⟨5, Addr.ptr 0⟩, ⟨7, Addr.ptr 128⟩, ⟨0, Addr.null⟩, ⟨0, Addr.null⟩]
    heap := [⟨30064771073, [1, 2, 3]⟩, ⟨30064771073, [4, 5, 6]⟩,
      ⟨30064771073, [7, 8, 9]⟩]
    heapMax := 1000
    hcounter := 2
    wasted := 64
    isMaster := true
    allowRemoves := true
    allowWrites := true
    workersShouldExit := false
    workerCanExit := true }

/-- A master store whose single heap entry is garbage (no slot points at
it, `wasted = 64` = the whole heap): `should_collect` fires and the
collector reclaims everything (C3 witness, before collection). -/
def c3Wit : VState :=
  { hashtblSize := 4
    hashtbl := [⟨0, Addr.null⟩, ⟨0, Addr.null⟩, ⟨0, Addr.null⟩, ⟨0, Addr.null⟩]
    heap := [⟨12884901889, [9]⟩]
    heapMax := 1000
    hcounter := 0
    wasted := 64
    isMaster := true
    allowRemoves := true
    allowWrites := true
    workersShouldExit := false
    workerCanExit := true }

/-- `c3Wit` after `hh_collect`: the garbage entry is gone and the wasted
counter is reset (C3 witness, after collection). -/
def c3WitAfter : VState :=
  { hashtblSize := 4
    hashtbl := [⟨0, Addr.null⟩, ⟨0, Addr.null⟩, ⟨0, Addr.null⟩, ⟨0, Addr.null⟩]
    heap := []
    heapMax := 1000
    hcounter := 0
    wasted := 0
    isMaster := true
    allowRemoves := true
    allowWrites := true
    workersShouldExit := false
    workerCanExit := true }

/-!
# Theorems


First general-purpose lemmas (slot codecs, list accessors, probe
positions, the binary32 rounding facts), then the claim theorems with
their witnesses and counterexamples.
-/

theorem slotGet_set_self (l : List Nat) (i a : Nat) (h : i < l.length) :
    slotGet (l.set i a) i = a := by
  simp [slotGet, List.getD_eq_getElem?_getD, List.getElem?_set_self', h]

theorem slotGet_set_ne (l : List Nat) {i j : Nat} (a : Nat) (h : i ≠ j) :
    slotGet (l.set i a) j = slotGet l j := by
  simp [slotGet, List.getD_eq_getElem?_getD, List.getElem?_set_ne h]

theorem slotGet_mem (l : List Nat) (i : Nat) (h : i < l.length) :
    slotGet l i ∈ l := by
  simp [slotGet, List.getD_eq_getElem?_getD, List.getElem?_eq_getElem h]

theorem slotGet_replicate (n i : Nat) : slotGet (List.replicate n 0) i = 0 := by
  simp [slotGet, List.getD_eq_getElem?_getD]

theorem length_set_eq (l : List Nat) (i a : Nat) : (l.set i a).length = l.length :=
  List.length_set ..

/-! ### Dep-entry codec -/

theorem depKeyNum_mk (kn kt nn nt : Nat) (h : kn < 2147483648) :
    depKeyNum (mkDepEntry kn kt nn nt) = kn := by
  unfold depKeyNum mkDepEntry; omega

theorem depKeyTag_mk (kn kt nn nt : Nat) (h : kn < 2147483648) (h2 : kt < 2) :
    depKeyTag (mkDepEntry kn kt nn nt) = kt := by
  unfold depKeyTag mkDepEntry; omega

theorem depNextNum_mk (kn kt nn nt : Nat) (h : kn < 2147483648) (h2 : kt < 2)
    (h3 : nn < 2147483648) :
    depNextNum (mkDepEntry kn kt nn nt) = nn := by
  unfold depNextNum mkDepEntry; omega

theorem depNextTag_mk (kn kt nn nt : Nat) (h : kn < 2147483648) (h2 : kt < 2)
    (h3 : nn < 2147483648) (h4 : nt < 2) :
    depNextTag (mkDepEntry kn kt nn nt) = nt := by
  unfold depNextTag mkDepEntry; omega

theorem mkDepEntry_head_ne_zero (kn nn nt : Nat) :
    mkDepEntry kn 1 nn nt ≠ 0 := by
  unfold mkDepEntry; omega

/-! ### Heap-header codec -/

theorem entrySize_mk (size kind usize : Nat) (hk : kind < 2) (hu : usize < 2147483648) :
    entrySize (mkHeader size kind usize) = size := by
  unfold entrySize mkHeader; omega

theorem entryKind_mk (size kind usize : Nat) (hk : kind < 2) (hu : usize < 2147483648) :
    entryKind (mkHeader size kind usize) = kind := by
  unfold entryKind mkHeader; omega

theorem entryUncompressedSize_mk (size kind usize : Nat) (hu : usize < 2147483648) :
    entryUncompressedSize (mkHeader size kind usize) = usize := by
  unfold entryUncompressedSize mkHeader; omega

theorem alignedSize_pos (h : Nat) : 0 < alignedSize h := by
  unfold alignedSize heapEntryTotalSize; omega

/-! ### Probe positions -/

theorem probe_pos_lt {n : Nat} (h t : Nat) (hn : 0 < n) : (h + t) % n < n :=
  Nat.mod_lt _ hn

theorem probe_pos_inj {n h : Nat} {t t' : Nat} (ht : t < n) (ht' : t' < n)
    (heq : (h + t) % n = (h + t') % n) : t = t' := by
  have h1 : t % n = t' % n :=
    Nat.ModEq.add_left_cancel' h heq
  rwa [Nat.mod_eq_of_lt ht, Nat.mod_eq_of_lt ht'] at h1

/-! ### binary32 rounding -/

theorem bitLenAux_le_iff (fuel n k : Nat) (hf : n < 2 ^ fuel) :
    bitLenAux fuel n ≤ k ↔ n < 2 ^ k := by
  induction fuel generalizing n k with
  | zero =>
    simp only [bitLenAux]
    have : n = 0 := by simpa using hf
    subst this
    simp [Nat.pos_pow_of_pos]
  | succ f ih =>
    by_cases h0 : n = 0
    · subst h0; simp [bitLenAux, Nat.pos_pow_of_pos]
    · simp only [bitLenAux, h0, if_false]
      cases k with
      | zero =>
        simp only [Nat.pow_zero]
        omega
      | succ k' =>
        have hh : n / 2 < 2 ^ f := by
          have : (2:Nat) ^ (f + 1) = 2 ^ f * 2 := by ring
          omega
        rw [Nat.add_le_add_iff_right, ih (n / 2) k' hh]
        have : (2:Nat) ^ (k' + 1) = 2 ^ k' * 2 := by ring
        omega

theorem bitLen_le_iff (n k : Nat) (hn : n < 18446744073709551616) :
    bitLen n ≤ k ↔ n < 2 ^ k := by
  have : n < 2 ^ 64 := by norm_num; omega
  exact bitLenAux_le_iff 64 n k this

theorem f32OfNat_exact (n : Nat) (h : n ≤ 16777216) : f32OfNat n = ⟨n, 0⟩ := by
  by_cases he : n = 16777216
  · subst he; decide
  · have hb : bitLen n ≤ 24 := by
      rw [bitLen_le_iff n 24 (by omega)]
      norm_num
      omega
    simp [f32OfNat, f32Round, hb]

theorem f32Round_double (n : Nat) (h : n ≤ 16777216) :
    f32Round (2 * n) 0 = ⟨2 * n, 0⟩ := by
  by_cases hb : bitLen (2 * n) ≤ 24
  · simp [f32Round, hb]
  · have h24 : ¬ (2 * n < 2 ^ 24) := by
      rw [← bitLen_le_iff (2 * n) 24 (by omega)]; exact hb
    have h26 : bitLen (2 * n) ≤ 26 := by
      rw [bitLen_le_iff (2 * n) 26 (by omega)]
      norm_num; omega
    have h25 : bitLen (2 * n) ≤ 25 ∨ bitLen (2 * n) = 26 := by omega
    rcases h25 with h25 | h26'
    · -- shift 1, remainder 0
      have hsh : bitLen (2 * n) - 24 = 1 := by omega
      simp only [f32Round, hb, if_false, hsh]
      have : roundNearestEven (2 * n) 1 = n := by
        unfold roundNearestEven
        norm_num
      rw [this]
      congr 1
      ring
    · -- bitLen = 26 only at 2n = 2^25
      have hge : 2 ^ 25 ≤ 2 * n := by
        by_contra hlt
        have := (bitLen_le_iff (2 * n) 25 (by omega)).mpr (by omega)
        omega
      have : n = 16777216 := by norm_num at hge; omega
      subst this; decide

theorem f32Trunc_exp_zero (m : Nat) : f32Trunc ⟨m, 0⟩ = m := by
  simp [f32Trunc]

/-!
### Claim C7: the collection predicate

`should_collect` compares against `(size_t)(space_overhead * reachable)`
computed in single precision; for factor 2.0 this coincides with the
exact `used >= 2 * reachable` as long as `reachable` fits in the 24-bit
significand, and diverges beyond it (see the counterexample).
-/

/-- C7 (amended): with the default factor 2.0 and `reachable = used -
wasted` at most `2^24` (exactly representable in binary32), the predicate
returns true exactly when `used ≥ 2 * reachable`.  Beyond `2^24` the
claimed exact comparison fails because the C code converts `reachable` to
a single-precision float first. -/
theorem should_collect_two_exact (used wasted : Nat) (_hw : wasted ≤ used)
    (hr : used - wasted ≤ 16777216) :
    (should_collect false used wasted = true) ↔ 2 * (used - wasted) ≤ used := by
  unfold should_collect
  simp only [Bool.false_eq_true, if_false, decide_eq_true_eq]
  rw [f32OfNat_exact _ hr]
  unfold f32Mul f32Two
  simp only
  rw [f32Round_double _ hr, f32Trunc_exp_zero]

/-- C7 witness: the amended theorem applied at `used = 200, wasted = 120`
(`reachable = 80`): the predicate returns true and `2 * 80 ≤ 200`. -/
theorem should_collect_two_exact_witness :
    (should_collect false 200 120 = true) ↔ 2 * (200 - 120) ≤ 200 :=
  should_collect_two_exact 200 120 (by norm_num) (by norm_num)

/-- C7 counterexample: at `used = 33554433`, `wasted = 16777216`
(`reachable = 2^24 + 1`), the code returns true although
`used < 2 * reachable = 33554434`: binary32 rounds `2^24 + 1` down to
`2^24`, so the claimed exact predicate `used ≥ factor * reachable` is
false of the code. -/
theorem should_collect_cex :
    should_collect false 33554433 16777216 = true ∧
    ¬ (2 * (33554433 - 16777216) ≤ 33554433) := by
  constructor
  · decide
  · decide

/-! ### Value-store table accessors -/

theorem heltD_set_self (l : List Helt) (i : Nat) (a : Helt) (h : i < l.length) :
    heltD (l.set i a) i = a := by
  simp [heltD, List.getD_eq_getElem?_getD, List.getElem?_set_self', h]

theorem heltD_set_ne (l : List Helt) {i j : Nat} (a : Helt) (h : i ≠ j) :
    heltD (l.set i a) j = heltD l j := by
  simp [heltD, List.getD_eq_getElem?_getD, List.getElem?_set_ne h]

theorem countP_set_sum {α : Type} (p : α → Bool) (l : List α) (i : Nat) (a : α)
    (h : i < l.length) :
    (l.set i a).countP p + (if p l[i] then 1 else 0) =
      l.countP p + (if p a then 1 else 0) := by
  induction l generalizing i with
  | nil => simp at h
  | cons x xs ih =>
    cases i with
    | zero => simp [List.countP_cons]; omega
    | succ n =>
      have hn : n < xs.length := by simpa using h
      simp only [List.set, List.countP_cons, List.getElem_cons_succ]
      have := ih n hn
      omega

/-! ### `find_slot` basic facts -/

theorem find_slot_loop_lt (hash : Nat) (tbl : List Helt) (size : Nat) :
    ∀ n slot j, slot < size → find_slot_loop hash tbl size n slot = .ok j →
    j < size := by
  intro n
  induction n with
  | zero => intro slot j _ hrun; simp [find_slot_loop] at hrun
  | succ n ih =>
    intro slot j hslot hrun
    simp only [find_slot_loop] at hrun
    by_cases h1 : (heltD tbl slot).hash = hash
    · rw [if_pos h1] at hrun
      cases hrun; exact hslot
    · rw [if_neg h1] at hrun
      by_cases h2 : (heltD tbl slot).hash = 0
      · rw [if_pos h2] at hrun
        cases hrun; exact hslot
      · rw [if_neg h2] at hrun
        exact ih _ _ (Nat.mod_lt _ (by omega)) hrun

theorem find_slot_loop_spec (hash : Nat) (tbl : List Helt) (size : Nat) :
    ∀ n slot j, find_slot_loop hash tbl size n slot = .ok j →
    (heltD tbl j).hash = hash ∨ (heltD tbl j).hash = 0 := by
  intro n
  induction n with
  | zero => intro slot j hrun; simp [find_slot_loop] at hrun
  | succ n ih =>
    intro slot j hrun
    simp only [find_slot_loop] at hrun
    by_cases h1 : (heltD tbl slot).hash = hash
    · rw [if_pos h1] at hrun
      cases hrun; exact Or.inl h1
    · rw [if_neg h1] at hrun
      by_cases h2 : (heltD tbl slot).hash = 0
      · rw [if_pos h2] at hrun
        cases hrun; exact Or.inr h2
      · rw [if_neg h2] at hrun
        exact ih _ _ hrun

theorem find_slot_size_pos (s : VState) (hash j : Nat)
    (h : find_slot s hash = .ok j) : 0 < s.hashtblSize := by
  by_contra hn
  have h0 : s.hashtblSize = 0 := by omega
  unfold find_slot at h
  rw [h0] at h
  simp [find_slot_loop] at h

theorem find_slot_lt (s : VState) (hash j : Nat)
    (h : find_slot s hash = .ok j) : j < s.hashtblSize := by
  have hpos := find_slot_size_pos s hash j h
  unfold find_slot at h
  exact find_slot_loop_lt hash s.hashtbl s.hashtblSize _ _ j
    (Nat.mod_lt _ hpos) h

/-!
### Claim C9: saving the dep table with `replace_state_after_saving`
-/

/-- C9: saving the dependency table with `replace_state_after_saving`
set zeroes every slot of both the in-memory adjacency table and the
bindings filter — a subsequent in-memory `get_edges(u)` returns the empty
list for every `u` — while `dcounter` keeps its pre-save value. -/
theorem hh_save_dep_table_replace_clears (s : DepState) (u : Nat)
    (hd : 0 < s.depSize) (hu : u < 2147483648)
    (hx : s.workersShouldExit = false) :
    (hh_save_dep_table_state s true).dcounter = s.dcounter ∧
    hh_get_dep (hh_save_dep_table_state s true) u = .ok [] ∧
    (∀ w ∈ (hh_save_dep_table_state s true).bindings, w = 0) ∧
    (∀ w ∈ (hh_save_dep_table_state s true).deptbl, w = 0) := by
  have hred : hh_save_dep_table_state s true = kill_dep_used_slots s := rfl
  rw [hred]
  unfold kill_dep_used_slots
  refine ⟨rfl, ?_, ?_, ?_⟩
  · unfold hh_get_dep depCheckShouldExit
    simp only [hx, Bool.and_false, Bool.false_eq_true, if_false, hu, if_pos]
    obtain ⟨n, hn⟩ : ∃ n, s.depSize = n + 1 := ⟨s.depSize - 1, by omega⟩
    simp only [hn]
    simp [hh_get_dep_loop, List.getD_eq_getElem?_getD]
  · intro w hw
    exact List.eq_of_mem_replicate hw
  · intro w hw
    exact List.eq_of_mem_replicate hw

/-- C9 witness: the theorem applied to a fresh 8-slot table with
`dcounter` forced to 5. -/
theorem hh_save_dep_table_replace_clears_witness :
    (hh_save_dep_table_state { depInit 3 with dcounter := 5 } true).dcounter = 5 ∧
    hh_get_dep (hh_save_dep_table_state { depInit 3 with dcounter := 5 } true) 7 = .ok [] := by
  have h := hh_save_dep_table_replace_clears { depInit 3 with dcounter := 5 } 7
    (by norm_num [depInit]) (by norm_num) (by rfl)
  exact ⟨h.1, h.2.1⟩

/-!
### Claim C10: `hh_move` requires the remove phase gate
-/

/-- C10: `hh_move` asserts `allow_removes` in addition to master
identity — even run by the master, a move while removes are disallowed is
a contract violation (the C `assert(*allow_removes)` aborts; here the
assertion failure outcome). -/
theorem hh_move_requires_allow_removes (s : VState) (h1 h2 j1 j2 : Nat)
    (hf1 : find_slot s h1 = .ok j1) (hf2 : find_slot s h2 = .ok j2)
    (hm : s.isMaster = true) (hr : s.allowRemoves = false) :
    hh_move s h1 h2 = .error .assertFail := by
  unfold hh_move
  rw [hf1, hf2]
  simp [hm, hr]

/-- C10 witness: a fresh master store with removes disallowed; moving
key hash 0 to key hash 1 dies on the `allow_removes` assertion. -/
theorem hh_move_requires_allow_removes_witness :
    hh_move (vInit 1 100 true false) 0 1 = .error .assertFail :=
  hh_move_requires_allow_removes (vInit 1 100 true false) 0 1 0 1 rfl rfl rfl rfl

/-!
### Claim C4: `hh_mem_inner` status discrimination
-/

/-- C4: `has(k)` probes with `find_slot`; at the returned slot, a hash
mismatch (the probe stopped on an empty slot before finding `k`'s hash)
gives `AbsentNeverWritten`; a matching hash with `NULL` address gives
`AbsentRemoved`; a matching hash with a real address gives `Present`; the
in-progress sentinel makes the code spin and die after 60 seconds.  In
particular `put(k, v); remove(k)` gives `has(k) = AbsentRemoved` while an
unknown key gives `AbsentNeverWritten`. -/
theorem hh_mem_inner_spec (s : VState) (hash j off : Nat)
    (hx : vCheckShouldExit s = .ok ())
    (hf : find_slot s hash = .ok j) :
    ((heltD s.hashtbl j).hash ≠ hash →
      hh_mem_inner s hash = .ok .absentNeverWritten) ∧
    ((heltD s.hashtbl j).hash = hash → (heltD s.hashtbl j).addr = Addr.null →
      hh_mem_inner s hash = .ok .absentRemoved) ∧
    ((heltD s.hashtbl j).hash = hash → (heltD s.hashtbl j).addr = Addr.ptr off →
      hh_mem_inner s hash = .ok .present) ∧
    ((heltD s.hashtbl j).hash = hash → (heltD s.hashtbl j).addr = Addr.sentinel →
      hh_mem_inner s hash = .error .stuckWrite) ∧
    (c4Scenario.map (fun s2 => (hh_mem_inner s2 5, hh_mem_inner s2 9)) =
      .ok (.ok .absentRemoved, .ok .absentNeverWritten)) := by
  refine ⟨?_, ?_, ?_, ?_, by rfl⟩
  · intro hne
    unfold hh_mem_inner
    rw [hx, hf]
    simp [hne]
  · intro he ha
    unfold hh_mem_inner
    rw [hx, hf]
    simp [he, ha]
  · intro he ha
    unfold hh_mem_inner
    rw [hx, hf]
    simp [he, ha]
  · intro he ha
    unfold hh_mem_inner
    rw [hx, hf]
    simp [he, ha]

/-- C4 witness: the theorem applied to a fresh store at key hash 0,
slot 0 (empty table: the never-written branch fires). -/
theorem hh_mem_inner_spec_witness :
    hh_mem_inner (vInit 1 100 false false) 3 = .ok .absentNeverWritten ∧
    (c4Scenario.map (fun s2 => (hh_mem_inner s2 5, hh_mem_inner s2 9)) =
      .ok (.ok .absentRemoved, .ok .absentNeverWritten)) := by
  have h := hh_mem_inner_spec (vInit 1 100 false false) 3 1 0 rfl rfl
  exact ⟨h.1 (by decide), h.2.2.2.2⟩

/-!
### Claim C8: `hcounter` counts nonzero-hash slots
-/

theorem heltD_eq_getElem (l : List Helt) (i : Nat) (h : i < l.length) :
    heltD l i = l[i] := by
  simp [heltD, List.getD_eq_getElem?_getD, List.getElem?_eq_getElem h]

theorem map_hash_set_same (l : List Helt) (i : Nat) (a : Helt) (h : i < l.length)
    (hh : a.hash = l[i].hash) :
    (l.set i a).map Helt.hash = l.map Helt.hash := by
  apply List.ext_getElem?
  intro j
  simp only [List.getElem?_map]
  by_cases hij : i = j
  · subst hij
    have h2 : i < (l.set i a).length := by simpa using h
    rw [List.getElem?_eq_getElem h2, List.getElem?_eq_getElem h,
      List.getElem_set_self h2]
    simp [hh]
  · rw [List.getElem?_set_ne hij]

theorem countP_hash_set_same (l : List Helt) (i : Nat) (a : Helt)
    (h : i < l.length) (hh : a.hash = l[i].hash) :
    (l.set i a).countP (fun e => decide (e.hash ≠ 0)) =
      l.countP (fun e => decide (e.hash ≠ 0)) := by
  have key := countP_set_sum (fun e => decide (e.hash ≠ 0)) l i a h
  by_cases hz : l[i].hash = 0 <;> simp [hz, hh] at key ⊢ <;> omega

theorem countP_hash_set_new (l : List Helt) (i : Nat) (a : Helt)
    (h : i < l.length) (h0 : l[i].hash = 0) (ha : a.hash ≠ 0) :
    (l.set i a).countP (fun e => decide (e.hash ≠ 0)) =
      l.countP (fun e => decide (e.hash ≠ 0)) + 1 := by
  have key := countP_set_sum (fun e => decide (e.hash ≠ 0)) l i a h
  simp [h0, ha] at key ⊢
  omega

theorem countP_hash_set_both (l : List Helt) (i : Nat) (a : Helt)
    (h : i < l.length) (h0 : l[i].hash ≠ 0) (ha : a.hash ≠ 0) :
    (l.set i a).countP (fun e => decide (e.hash ≠ 0)) =
      l.countP (fun e => decide (e.hash ≠ 0)) := by
  have key := countP_set_sum (fun e => decide (e.hash ≠ 0)) l i a h
  simp [h0, ha] at key ⊢
  omega

theorem write_at_hcount (lz : Lz4) (s : VState) (slot : Nat) (b : List Nat)
    (s' : VState) (r : Option (Nat × Nat)) (hslot : slot < s.hashtbl.length)
    (hinv : hcountInv s) (hrun : write_at lz s slot b = .ok (s', r)) :
    hcountInv s' := by
  unfold write_at at hrun
  split at hrun
  · split at hrun
    · split at hrun
      · simp at hrun
      · split at hrun
        · simp at hrun
        · rename_i s1 off heq
          cases hrun
          unfold hh_alloc at heq
          split at heq
          · cases heq
            unfold hcountInv at hinv ⊢
            simp only
            rw [countP_hash_set_same s.hashtbl slot _ hslot
              (by rw [heltD_eq_getElem s.hashtbl slot hslot])]
            exact hinv
          · simp at heq
    · simp at hrun
  · cases hrun
    exact hinv

theorem hh_add_loop_hcount (lz : Lz4) (hash : Nat) (b : List Nat) :
    ∀ (n slot : Nat) (s s' : VState) (r : Option (Nat × Nat)),
    s.hashtbl.length = s.hashtblSize → slot < s.hashtblSize →
    hcountInv s → hh_add_loop lz hash b n slot s = .ok (s', r) → hcountInv s' := by
  intro n
  induction n with
  | zero => intro slot s s' r _ _ _ hrun; simp [hh_add_loop] at hrun
  | succ n ih =>
    intro slot s s' r hlen hslot hinv hrun
    simp only [hh_add_loop] at hrun
    by_cases h1 : (heltD s.hashtbl slot).hash = hash
    · rw [if_pos h1] at hrun
      exact write_at_hcount lz s slot b s' r (by omega) hinv hrun
    · rw [if_neg h1] at hrun
      by_cases h2 : s.hashtblSize ≤ s.hcounter
      · rw [if_pos h2] at hrun; exact absurd hrun (by simp)
      · rw [if_neg h2] at hrun
        by_cases h3 : (heltD s.hashtbl slot).hash = 0
        · rw [if_pos h3] at hrun
          have hsl : slot < s.hashtbl.length := by omega
          apply write_at_hcount lz _ slot b s' r (by simpa using hsl) _ hrun
          -- the claimed slot transitions hash 0 → hash (nonzero here)
          unfold hcountInv at hinv ⊢
          simp only
          have hz : s.hashtbl[slot].hash = 0 := by
            rw [← heltD_eq_getElem s.hashtbl slot hsl]; exact h3
          have hnz : hash ≠ 0 := fun hc => h1 (by rw [hc]; exact h3)
          rw [countP_hash_set_new s.hashtbl slot _ hsl hz hnz]
          omega
        · rw [if_neg h3] at hrun
          exact ih _ s s' r hlen (Nat.mod_lt _ (by omega)) hinv hrun

theorem hh_add_hcount (lz : Lz4) (s : VState) (hash : Nat) (b : List Nat)
    (s' : VState) (r : Option (Nat × Nat))
    (hlen : s.hashtbl.length = s.hashtblSize) (hinv : hcountInv s)
    (hrun : hh_add lz s hash b = .ok (s', r)) : hcountInv s' := by
  unfold hh_add at hrun
  split at hrun
  · exact absurd hrun (by simp)
  · by_cases h0 : s.hashtblSize = 0
    · rw [h0] at hrun; simp [hh_add_loop] at hrun
    · exact hh_add_loop_hcount lz hash b s.hashtblSize (hash % s.hashtblSize)
        s s' r hlen (Nat.mod_lt _ (by omega)) hinv hrun

theorem hh_move_hcount (s : VState) (h1 h2 : Nat) (s' : VState)
    (hlen : s.hashtbl.length = s.hashtblSize) (hinv : hcountInv s)
    (hh2 : h2 ≠ 0) (hrun : hh_move s h1 h2 = .ok s') : hcountInv s' := by
  unfold hh_move at hrun
  cases hf1 : find_slot s h1 with
  | error e => rw [hf1] at hrun; exact absurd hrun (by simp)
  | ok slot1 =>
    cases hf2 : find_slot s h2 with
    | error e => rw [hf1, hf2] at hrun; exact absurd hrun (by simp)
    | ok slot2 =>
      rw [hf1, hf2] at hrun
      have hs1 : slot1 < s.hashtblSize := find_slot_lt s h1 slot1 hf1
      have hs2 : slot2 < s.hashtblSize := find_slot_lt s h2 slot2 hf2
      simp only at hrun
      have hsl1 : slot1 < s.hashtbl.length := by omega
      have hsl2 : slot2 < s.hashtbl.length := by omega
      split at hrun
      · split at hrun
        · split at hrun
          · split at hrun
            · by_cases hz : (heltD s.hashtbl slot2).hash = 0
              · rw [if_pos hz] at hrun
                cases hrun
                unfold hcountInv at hinv ⊢
                simp only
                have hzg : s.hashtbl[slot2].hash = 0 := by
                  rw [← heltD_eq_getElem s.hashtbl slot2 hsl2]; exact hz
                have k1 := countP_hash_set_new s.hashtbl slot2
                  ⟨h2, (heltD s.hashtbl slot1).addr⟩ hsl2 hzg hh2
                have hlt1 : slot1 <
                    (s.hashtbl.set slot2 ⟨h2, (heltD s.hashtbl slot1).addr⟩).length := by
                  simpa using hsl1
                have k2 := countP_hash_set_same
                  (s.hashtbl.set slot2 ⟨h2, (heltD s.hashtbl slot1).addr⟩) slot1
                  ⟨(heltD (s.hashtbl.set slot2 ⟨h2, (heltD s.hashtbl slot1).addr⟩) slot1).hash,
                    Addr.null⟩ hlt1 (by
                    rw [heltD_eq_getElem
                      (s.hashtbl.set slot2 ⟨h2, (heltD s.hashtbl slot1).addr⟩) slot1 hlt1])
                rw [k2, k1]
                omega
              · rw [if_neg hz] at hrun
                cases hrun
                unfold hcountInv at hinv ⊢
                simp only
                have hzg : s.hashtbl[slot2].hash ≠ 0 := by
                  rw [← heltD_eq_getElem s.hashtbl slot2 hsl2]; exact hz
                have k1 := countP_hash_set_both s.hashtbl slot2
                  ⟨h2, (heltD s.hashtbl slot1).addr⟩ hsl2 hzg hh2
                have hlt1 : slot1 <
                    (s.hashtbl.set slot2 ⟨h2, (heltD s.hashtbl slot1).addr⟩).length := by
                  simpa using hsl1
                have k2 := countP_hash_set_same
                  (s.hashtbl.set slot2 ⟨h2, (heltD s.hashtbl slot1).addr⟩) slot1
                  ⟨(heltD (s.hashtbl.set slot2 ⟨h2, (heltD s.hashtbl slot1).addr⟩) slot1).hash,
                    Addr.null⟩ hlt1 (by
                    rw [heltD_eq_getElem
                      (s.hashtbl.set slot2 ⟨h2, (heltD s.hashtbl slot1).addr⟩) slot1 hlt1])
                rw [k2, k1]
                exact hinv
            · simp at hrun
          · simp at hrun
        · simp at hrun
      · simp at hrun

theorem hh_remove_effects (s : VState) (hash : Nat) (s' : VState)
    (hlen : s.hashtbl.length = s.hashtblSize)
    (hrun : hh_remove s hash = .ok s') :
    s'.hcounter = s.hcounter ∧
    s'.hashtbl.map Helt.hash = s.hashtbl.map Helt.hash ∧
    (hcountInv s → hcountInv s') := by
  unfold hh_remove at hrun
  cases hf : find_slot s hash with
  | error e => rw [hf] at hrun; exact absurd hrun (by simp)
  | ok slot =>
    rw [hf] at hrun
    have hs : slot < s.hashtblSize := find_slot_lt s hash slot hf
    simp only at hrun
    split at hrun
    · split at hrun
      · split at hrun
        · split at hrun
          · split at hrun
            · cases hrun
              refine ⟨rfl, ?_, ?_⟩
              · exact map_hash_set_same s.hashtbl slot _ (by omega)
                  (by rw [heltD_eq_getElem s.hashtbl slot (by omega)])
              · intro hinv
                unfold hcountInv at hinv ⊢
                simp only
                rw [countP_hash_set_same s.hashtbl slot _ (by omega)
                  (by rw [heltD_eq_getElem s.hashtbl slot (by omega)])]
                exact hinv
            · exact absurd hrun (by simp)
          · exact absurd hrun (by simp)
        · exact absurd hrun (by simp)
      · exact absurd hrun (by simp)
    · exact absurd hrun (by simp)

/-- C8 (amended): `hcounter` equals the number of nonzero-hash slots, and
the three mutators preserve this — `hh_add` increments exactly on a
0 → hash transition, `hh_move` exactly when the destination hash was
zero, `hh_remove` never (it leaves every hash and the counter alone) —
provided the destination key hash of `hh_move` is nonzero.  (An 8-byte
key prefix of all zero bytes breaks the invariant through `hh_move`; see
the counterexample.) -/
theorem hcounter_invariant (lz : Lz4) (s s1 s2 s3 : VState)
    (hash h1 h2 h3 : Nat) (b : List Nat) (r : Option (Nat × Nat))
    (hlen : s.hashtbl.length = s.hashtblSize) (hinv : hcountInv s) :
    (hh_add lz s hash b = .ok (s1, r) → hcountInv s1) ∧
    (h2 ≠ 0 → hh_move s h1 h2 = .ok s2 → hcountInv s2) ∧
    (hh_remove s h3 = .ok s3 →
      hcountInv s3 ∧ s3.hcounter = s.hcounter ∧
      s3.hashtbl.map Helt.hash = s.hashtbl.map Helt.hash) := by
  refine ⟨?_, ?_, ?_⟩
  · intro hrun
    exact hh_add_hcount lz s hash b s1 r hlen hinv hrun
  · intro hh2 hrun
    exact hh_move_hcount s h1 h2 s2 hlen hinv hh2 hrun
  · intro hrun
    obtain ⟨a, b', c⟩ := hh_remove_effects s h3 s3 hlen hrun
    exact ⟨c hinv, a, b'⟩

/-- C8 witness: the theorem applied to a two-slot master store holding
key hash 5; adding key hash 7, moving 5 to 6, and removing 5 each
preserve the occupancy invariant. -/
theorem hcounter_invariant_witness :
    hcountInv c8AfterAdd ∧ hcountInv c8AfterMove ∧ hcountInv c8AfterRemove := by
  have h := hcounter_invariant lzNone c8Base c8AfterAdd c8AfterMove c8AfterRemove
    7 5 6 5 [2, 3] (some (2, 2)) rfl rfl
  exact ⟨h.1 rfl, h.2.1 (by decide) rfl, (h.2.2 rfl).1⟩

/-- C8 counterexample: a key whose 8-byte hash prefix is zero defeats
the invariant as literally claimed.  `hh_move` of key hash 5 onto key
hash 0 increments `hcounter` (the destination slot's hash was zero) yet
writes a zero hash back, so afterwards `hcounter = 2` while only one
slot has a nonzero hash. -/
theorem hcounter_invariant_cex :
    hcountInv c8Base ∧
    hh_move c8Base 5 0 = .ok c8MoveZero ∧
    ¬ hcountInv c8MoveZero := by
  refine ⟨by rfl, by rfl, by unfold hcountInv; decide⟩

/-!
### Claim C1: put/get round-trip
-/

theorem store_deserialize_roundtrip (lz : Lz4)
    (hrt : ∀ b cd, lz.compress b = some cd → lz.decompress cd b.length = some b)
    (b : List Nat) (hsize : b.length < 2147483648) (header : Nat)
    (payload : List Nat) (al og : Nat)
    (hst : hh_store_ocaml lz b = .ok (header, payload, al, og)) :
    hh_deserialize lz ⟨header, payload⟩ = .ok b ∧ og = b.length := by
  unfold hh_store_ocaml at hst
  rw [if_pos hsize] at hst
  cases hc : lz.compress b with
  | none =>
    rw [hc] at hst
    dsimp only at hst
    cases hst
    refine ⟨?_, rfl⟩
    unfold hh_deserialize
    rw [entryUncompressedSize_mk _ _ _ (by omega : (0:Nat) < 2147483648)]
    rw [if_neg (by omega), if_pos (entryKind_mk _ _ _ (by omega) (by omega))]
  | some cd =>
    rw [hc] at hst
    dsimp only at hst
    by_cases hlt : cd.length ≠ 0 ∧ cd.length < b.length
    · rw [if_pos hlt] at hst
      cases hst
      refine ⟨?_, rfl⟩
      unfold hh_deserialize
      rw [entryUncompressedSize_mk _ _ _ hsize]
      have hb : b.length ≠ 0 := by omega
      rw [if_pos hb, hrt b _ hc]
      dsimp only
      rw [if_pos rfl, if_pos (entryKind_mk _ _ _ (by omega) hsize)]
    · rw [if_neg hlt] at hst
      cases hst
      refine ⟨?_, rfl⟩
      unfold hh_deserialize
      rw [entryUncompressedSize_mk _ _ _ (by omega : (0:Nat) < 2147483648)]
      rw [if_neg (by omega), if_pos (entryKind_mk _ _ _ (by omega) (by omega))]

theorem blockAtFrom_append_last (blocks : List HeapBlock) (blk : HeapBlock) :
    ∀ cur, blockAtFrom (blocks ++ [blk]) cur
      (cur + (blocks.map (fun x => alignedSize x.header)).sum) = some blk := by
  induction blocks with
  | nil => intro cur; simp [blockAtFrom]
  | cons x xs ih =>
    intro cur
    simp only [List.cons_append, blockAtFrom, List.map_cons, List.sum_cons]
    have hpos := alignedSize_pos x.header
    rw [if_neg (by omega)]
    have harith : cur + (alignedSize x.header + (xs.map (fun x => alignedSize x.header)).sum) =
        (cur + alignedSize x.header) + (xs.map (fun x => alignedSize x.header)).sum := by
      omega
    rw [harith]
    exact ih (cur + alignedSize x.header)

theorem blockAt_append_self (heap : List HeapBlock) (blk : HeapBlock) :
    blockAt (heap ++ [blk]) ((heap.map (fun x => alignedSize x.header)).sum) = some blk := by
  have h := blockAtFrom_append_last heap blk 0
  simpa [blockAt] using h

theorem heltD_length_set (l : List Helt) (i : Nat) (a : Helt) :
    (l.set i a).length = l.length := List.length_set ..

theorem write_at_win (lz : Lz4) (s : VState) (slot : Nat) (b : List Nat)
    (s' : VState) (al og : Nat)
    (hrun : write_at lz s slot b = .ok (s', some (al, og))) :
    ∃ header payload,
      hh_store_ocaml lz b = .ok (header, payload, al, og) ∧
      s'.hashtblSize = s.hashtblSize ∧
      s'.hcounter = s.hcounter ∧
      s'.heap = s.heap ++ [⟨header, payload⟩] ∧
      s'.workersShouldExit = s.workersShouldExit ∧
      s'.workerCanExit = s.workerCanExit ∧
      s'.hashtbl = s.hashtbl.set slot
        ⟨(heltD s.hashtbl slot).hash, Addr.ptr (usedHeapSize s)⟩ := by
  unfold write_at at hrun
  split at hrun
  · split at hrun
    · cases hso : hh_store_ocaml lz b with
      | error e => rw [hso] at hrun; simp at hrun
      | ok v =>
        obtain ⟨header, payload, al2, og2⟩ := v
        rw [hso] at hrun
        dsimp only at hrun
        unfold hh_alloc at hrun
        by_cases hcap : usedHeapSize s + alignedSize header ≤ s.heapMax
        · rw [if_pos hcap] at hrun
          dsimp only at hrun
          cases hrun
          exact ⟨header, payload, rfl, rfl, rfl, rfl, rfl, rfl, rfl⟩
        · rw [if_neg hcap] at hrun
          dsimp only at hrun
          simp at hrun
    · simp at hrun
  · simp at hrun

theorem hh_add_loop_win (lz : Lz4) (hash : Nat) (b : List Nat) :
    ∀ (n slot : Nat) (s s' : VState) (al og : Nat),
    s.hashtbl.length = s.hashtblSize → slot < s.hashtblSize →
    hh_add_loop lz hash b n slot s = .ok (s', some (al, og)) →
    ∃ j, j < s.hashtblSize ∧
      ((heltD s.hashtbl j).hash = hash ∨ (heltD s.hashtbl j).hash = 0) ∧
      (∀ p, p ≠ j → heltD s'.hashtbl p = heltD s.hashtbl p) ∧
      ∃ header payload,
        hh_store_ocaml lz b = .ok (header, payload, al, og) ∧
        s'.hashtblSize = s.hashtblSize ∧
        s'.heap = s.heap ++ [⟨header, payload⟩] ∧
        s'.workersShouldExit = s.workersShouldExit ∧
        s'.workerCanExit = s.workerCanExit ∧
        (heltD s'.hashtbl j).hash = hash ∧
        (heltD s'.hashtbl j).addr = Addr.ptr (usedHeapSize s) ∧
        find_slot_loop hash s'.hashtbl s.hashtblSize n slot = .ok j := by
  intro n
  induction n with
  | zero => intro slot s s' al og _ _ hrun; simp [hh_add_loop] at hrun
  | succ n ih =>
    intro slot s s' al og hlen hslot hrun
    have hsl : slot < s.hashtbl.length := by omega
    simp only [hh_add_loop] at hrun
    by_cases h1 : (heltD s.hashtbl slot).hash = hash
    · rw [if_pos h1] at hrun
      obtain ⟨header, payload, hst, hsz, hhc, hheap, hf1, hf2, htbl⟩ :=
        write_at_win lz s slot b s' al og hrun
      have hat : heltD s'.hashtbl slot =
          ⟨(heltD s.hashtbl slot).hash, Addr.ptr (usedHeapSize s)⟩ := by
        rw [htbl]; exact heltD_set_self s.hashtbl slot _ hsl
      refine ⟨slot, hslot, Or.inl h1, ?_, ?_⟩
      · intro p hp
        rw [htbl]
        exact heltD_set_ne s.hashtbl _ hp.symm
      · refine ⟨header, payload, hst, hsz, hheap, hf1, hf2, ?_, ?_, ?_⟩
        · rw [hat]; exact h1
        · rw [hat]
        · simp only [find_slot_loop]
          rw [if_pos (by rw [hat]; exact h1)]
    · rw [if_neg h1] at hrun
      by_cases h2 : s.hashtblSize ≤ s.hcounter
      · rw [if_pos h2] at hrun; simp at hrun
      · rw [if_neg h2] at hrun
        by_cases h3 : (heltD s.hashtbl slot).hash = 0
        · rw [if_pos h3] at hrun
          obtain ⟨header, payload, hst, hsz, hhc, hheap, hf1, hf2, htbl⟩ :=
            write_at_win lz _ slot b s' al og hrun
          have emid : heltD (s.hashtbl.set slot
              ⟨hash, (heltD s.hashtbl slot).addr⟩) slot =
              ⟨hash, (heltD s.hashtbl slot).addr⟩ :=
            heltD_set_self s.hashtbl slot _ hsl
          rw [show ({ s with
              hashtbl := s.hashtbl.set slot ⟨hash, (heltD s.hashtbl slot).addr⟩,
              hcounter := s.hcounter + 1 } : VState).hashtbl =
            s.hashtbl.set slot ⟨hash, (heltD s.hashtbl slot).addr⟩ from rfl,
            emid] at htbl
          have hat : heltD s'.hashtbl slot = ⟨hash, Addr.ptr (usedHeapSize s)⟩ := by
            rw [htbl]
            exact heltD_set_self _ slot _ (by rw [heltD_length_set]; exact hsl)
          refine ⟨slot, hslot, Or.inr h3, ?_, ?_⟩
          · intro p hp
            rw [htbl, heltD_set_ne _ _ hp.symm, heltD_set_ne _ _ hp.symm]
          · refine ⟨header, payload, hst, hsz, hheap, hf1, hf2, ?_, ?_, ?_⟩
            · rw [hat]
            · rw [hat]
            · simp only [find_slot_loop]
              rw [if_pos (by rw [hat])]
        · rw [if_neg h3] at hrun
          obtain ⟨j, hj, hold, hframe, rest⟩ :=
            ih ((slot + 1) % s.hashtblSize) s s' al og hlen
              (Nat.mod_lt _ (by omega)) hrun
          have hslotj : slot ≠ j := by
            intro he
            subst he
            rcases hold with hv | hv
            · exact h1 hv
            · exact h3 hv
          refine ⟨j, hj, hold, hframe, ?_⟩
          obtain ⟨header, payload, hst, hsz, hheap, hf1, hf2, hh, ha, hfind⟩ := rest
          refine ⟨header, payload, hst, hsz, hheap, hf1, hf2, hh, ha, ?_⟩
          simp only [find_slot_loop]
          rw [hframe slot (by exact hslotj)]
          rw [if_neg h1, if_neg h3]
          exact hfind

/-- C1: a `put(k, b)` that wins the write (`hh_add` returned a real
size pair, not the lost-race sentinel) followed by `get(k)` returns
exactly `b`, for any blob of at most `2 GiB - 1` bytes, whatever the LZ4
implementation chose to do — the only assumption is that the external
LZ4 round-trips its own output. -/
theorem hh_add_get_roundtrip (lz : Lz4)
    (hrt : ∀ b cd, lz.compress b = some cd → lz.decompress cd b.length = some b)
    (s s' : VState) (hash : Nat) (b : List Nat) (al og : Nat)
    (hlen : s.hashtbl.length = s.hashtblSize)
    (hsize : b.length ≤ 2147483647)
    (hadd : hh_add lz s hash b = .ok (s', some (al, og))) :
    hh_get_and_deserialize lz s' hash = .ok b := by
  unfold hh_add at hadd
  cases hx : vCheckShouldExit s with
  | error e => rw [hx] at hadd; simp at hadd
  | ok u =>
    rw [hx] at hadd
    dsimp only at hadd
    by_cases h0 : s.hashtblSize = 0
    · rw [h0] at hadd; simp [hh_add_loop] at hadd
    · obtain ⟨j, hj, hold, hframe, header, payload, hst, hsz, hheap, hf1, hf2,
        hh, ha, hfind⟩ :=
        hh_add_loop_win lz hash b s.hashtblSize (hash % s.hashtblSize) s s' al og
          hlen (Nat.mod_lt _ (by omega)) hadd
      have hx' : vCheckShouldExit s' = .ok () := by
        unfold vCheckShouldExit at hx ⊢
        rw [hf1, hf2]
        by_cases hc : s.workerCanExit && s.workersShouldExit
        · rw [if_pos hc] at hx; simp at hx
        · rw [if_neg hc]
      have hfind' : find_slot s' hash = .ok j := by
        unfold find_slot
        rw [hsz]
        exact hfind
      have hblk : blockAt s'.heap (usedHeapSize s) = some ⟨header, payload⟩ := by
        rw [hheap]
        exact blockAt_append_self s.heap ⟨header, payload⟩
      unfold hh_get_and_deserialize
      rw [hx']
      dsimp only
      rw [hfind']
      dsimp only
      rw [if_pos hh, ha]
      dsimp only
      rw [hblk]
      exact (store_deserialize_roundtrip lz hrt b (by omega) header payload al og hst).1

/-- C1 witness: the theorem applied to a fresh 4-slot store, key hash 5,
blob `[1, 2, 3]`, with an LZ4 whose compress always fails (stored raw). -/
theorem hh_add_get_roundtrip_witness :
    hh_get_and_deserialize lzNone c1After 5 = .ok [1, 2, 3] :=
  hh_add_get_roundtrip lzNone
    (by intro b cd h; simp [lzNone] at h)
    (vInit 2 1000 false false) c1After 5 [1, 2, 3] 3 3 rfl (by norm_num) rfl


/-!
### Claims C5 and C6: duplicate edges in the bindings filter
-/

theorem add_binding_loop_false (dS dc w : Nat) :
    ∀ (n slot : Nat) (b b' : List Nat) (dc' : Nat),
    add_binding_loop dS dc w n slot b = .ok (false, b', dc') →
    b' = b ∧ dc' = dc := by
  intro n
  induction n with
  | zero => intro slot b b' dc' hrun; simp [add_binding_loop] at hrun
  | succ n ih =>
    intro slot b b' dc' hrun
    simp only [add_binding_loop] at hrun
    by_cases h1 : b.getD slot 0 = w
    · rw [if_pos h1] at hrun
      cases hrun
      exact ⟨rfl, rfl⟩
    · rw [if_neg h1] at hrun
      by_cases h2 : dS ≤ dc
      · rw [if_pos h2] at hrun; simp at hrun
      · rw [if_neg h2] at hrun
        by_cases h3 : b.getD slot 0 = 0
        · rw [if_pos h3] at hrun; simp at hrun
        · rw [if_neg h3] at hrun
          exact ih _ b b' dc' hrun

theorem add_binding_loop_true (dS dc w : Nat) :
    ∀ (n slot : Nat) (b b' : List Nat) (dc' : Nat), slot < dS →
    add_binding_loop dS dc w n slot b = .ok (true, b', dc') →
    dc' = dc + 1 ∧ ∃ t, t < n ∧
      b' = b.set ((slot + t) % dS) w ∧
      slotGet b ((slot + t) % dS) = 0 ∧
      ∀ t' < t, slotGet b ((slot + t') % dS) ≠ 0 ∧
        slotGet b ((slot + t') % dS) ≠ w := by
  intro n
  induction n with
  | zero => intro slot b b' dc' _ hrun; simp [add_binding_loop] at hrun
  | succ n ih =>
    intro slot b b' dc' hslot hrun
    simp only [add_binding_loop] at hrun
    by_cases h1 : b.getD slot 0 = w
    · rw [if_pos h1] at hrun; simp at hrun
    · rw [if_neg h1] at hrun
      by_cases h2 : dS ≤ dc
      · rw [if_pos h2] at hrun; simp at hrun
      · rw [if_neg h2] at hrun
        by_cases h3 : b.getD slot 0 = 0
        · rw [if_pos h3] at hrun
          cases hrun
          refine ⟨rfl, 0, by omega, ?_, ?_, ?_⟩
          · rw [Nat.add_zero, Nat.mod_eq_of_lt hslot]
          · rw [Nat.add_zero, Nat.mod_eq_of_lt hslot]
            exact h3
          · intro t' ht'; omega
        · rw [if_neg h3] at hrun
          obtain ⟨hdc, t, ht, hb, hz, hpath⟩ :=
            ih ((slot + 1) % dS) b b' dc' (Nat.mod_lt _ (by omega)) hrun
          have hpos : ∀ k, ((slot + 1) % dS + k) % dS = (slot + (k + 1)) % dS := by
            intro k
            rw [Nat.mod_add_mod]
            congr 1
            omega
          refine ⟨hdc, t + 1, by omega, ?_, ?_, ?_⟩
          · rw [← hpos t]; exact hb
          · rw [← hpos t]; exact hz
          · intro t' ht'
            cases t' with
            | zero =>
              rw [Nat.add_zero, Nat.mod_eq_of_lt hslot]
              exact ⟨h3, h1⟩
            | succ k =>
              rw [← hpos k]
              exact hpath k (by omega)

theorem add_binding_loop_found (dS dc w : Nat) :
    ∀ (n slot : Nat) (b : List Nat) (t : Nat), slot < dS → dc < dS → t < n →
    slotGet b ((slot + t) % dS) = w →
    (∀ t' < t, slotGet b ((slot + t') % dS) ≠ 0 ∧
      slotGet b ((slot + t') % dS) ≠ w) →
    add_binding_loop dS dc w n slot b = .ok (false, b, dc) := by
  intro n
  induction n with
  | zero => intro slot b t _ _ ht; omega
  | succ n ih =>
    intro slot b t hslot hdc ht hfound hpath
    simp only [slotGet] at hfound hpath
    simp only [add_binding_loop]
    cases t with
    | zero =>
      rw [Nat.add_zero, Nat.mod_eq_of_lt hslot] at hfound
      rw [if_pos hfound]
    | succ k =>
      have h0 := hpath 0 (by omega)
      rw [Nat.add_zero, Nat.mod_eq_of_lt hslot] at h0
      rw [if_neg h0.2, if_neg (by omega), if_neg h0.1]
      have hpos : ∀ m, ((slot + 1) % dS + m) % dS = (slot + (m + 1)) % dS := by
        intro m
        rw [Nat.mod_add_mod]
        congr 1
        omega
      apply ih ((slot + 1) % dS) b k (Nat.mod_lt _ (by omega)) hdc (by omega)
      · rw [hpos k]; exact hfound
      · intro t' ht'
        rw [hpos t']
        exact hpath (t' + 1) (by omega)

theorem add_binding_loop_no_full (dS dc w : Nat) (hdc : dc < dS) :
    ∀ (n slot : Nat) (b : List Nat),
    add_binding_loop dS dc w n slot b ≠ .error .depTableFull := by
  intro n
  induction n with
  | zero => intro slot b; simp [add_binding_loop]
  | succ n ih =>
    intro slot b
    simp only [add_binding_loop]
    by_cases h1 : b.getD slot 0 = w
    · rw [if_pos h1]; simp
    · rw [if_neg h1]
      rw [if_neg (by omega)]
      by_cases h3 : b.getD slot 0 = 0
      · rw [if_pos h3]; simp
      · rw [if_neg h3]
        exact ih _ b

theorem prepend_fields (s : DepState) (key val : Nat) (s2 : DepState)
    (h : prepend_to_deptbl_list s key val = .ok s2) :
    s2.depSize = s.depSize ∧ s2.bindings = s.bindings ∧
    s2.dcounter = s.dcounter ∧
    s2.workersShouldExit = s.workersShouldExit ∧
    s2.workerCanExit = s.workerCanExit := by
  unfold prepend_to_deptbl_list at h
  cases hp : prepend_loop s.depSize key val s.depSize
      (hash_uint64 key % s.depSize) s.deptbl with
  | error e => rw [hp] at h; simp at h
  | ok dt =>
    rw [hp] at h
    cases h
    exact ⟨rfl, rfl, rfl, rfl, rfl⟩

theorem hh_add_dep_fields (s s' : DepState) (u v : Nat)
    (h : hh_add_dep s u v = .ok s') :
    s'.depSize = s.depSize ∧ s'.workersShouldExit = s.workersShouldExit ∧
    s'.workerCanExit = s.workerCanExit ∧ depCheckShouldExit s = .ok () ∧
    u < 2147483648 ∧ v < 2147483648 := by
  unfold hh_add_dep at h
  cases hx : depCheckShouldExit s with
  | error e => rw [hx] at h; simp at h
  | ok uu =>
    rw [hx] at h
    dsimp only at h
    unfold add_dep at h
    by_cases hb : u < 2147483648 ∧ v < 2147483648
    · rw [if_pos hb] at h
      unfold add_binding at h
      cases hr : add_binding_loop s.depSize s.dcounter (u * 2147483648 + v)
          s.depSize (hash_uint64 (u * 2147483648 + v) % s.depSize) s.bindings with
      | error e => rw [hr] at h; simp at h
      | ok res =>
        obtain ⟨isNew, b2, dc2⟩ := res
        rw [hr] at h
        dsimp only at h
        cases isNew with
        | false =>
          cases h
          exact ⟨rfl, rfl, rfl, rfl, hb.1, hb.2⟩
        | true =>
          obtain ⟨e1, _, _, e4, e5⟩ := prepend_fields _ u v s' h
          exact ⟨e1, e4, e5, rfl, hb.1, hb.2⟩
    · rw [if_neg hb] at h; simp at h

theorem add_dep_then_duplicate (s s' : DepState) (u v : Nat)
    (hlen : s.bindings.length = s.depSize)
    (h1 : hh_add_dep s u v = .ok s')
    (hroom : s'.dcounter < s'.depSize) :
    add_binding s' (u * 2147483648 + v) = .ok (false, s') := by
  obtain ⟨hdS, _, _, hx, hu, hv⟩ := hh_add_dep_fields s s' u v h1
  unfold hh_add_dep at h1
  rw [hx] at h1
  dsimp only at h1
  unfold add_dep at h1
  rw [if_pos ⟨hu, hv⟩] at h1
  unfold add_binding at h1
  cases hr : add_binding_loop s.depSize s.dcounter (u * 2147483648 + v)
      s.depSize (hash_uint64 (u * 2147483648 + v) % s.depSize) s.bindings with
  | error e => rw [hr] at h1; simp at h1
  | ok res =>
    obtain ⟨isNew, b2, dc2⟩ := res
    rw [hr] at h1
    dsimp only at h1
    cases isNew with
    | false =>
      obtain ⟨hb2, hdc2⟩ := add_binding_loop_false _ _ _ _ _ _ _ _ hr
      subst hb2; subst hdc2
      cases h1
      unfold add_binding
      dsimp only
      rw [hr]
    | true =>
      have hdS0 : 0 < s.depSize := by omega
      obtain ⟨hdc2, t, ht, hb2, hz, hpath⟩ :=
        add_binding_loop_true s.depSize s.dcounter (u * 2147483648 + v) s.depSize
          (hash_uint64 (u * 2147483648 + v) % s.depSize) s.bindings b2 dc2
          (Nat.mod_lt _ hdS0) hr
      obtain ⟨e1, e2, e3, _, _⟩ := prepend_fields _ u v s' h1
      have he2 : s'.bindings = b2 := by
        rw [e2]
      have he3 : s'.dcounter = dc2 := by
        rw [e3]
      set slot0 := hash_uint64 (u * 2147483648 + v) % s.depSize with hslot0
      have hj : (slot0 + t) % s.depSize < s.depSize := Nat.mod_lt _ hdS0
      have hfound : slotGet b2 ((slot0 + t) % s.depSize) = u * 2147483648 + v := by
        rw [hb2]
        exact slotGet_set_self s.bindings _ _ (by omega)
      have hpath2 : ∀ t' < t,
          slotGet b2 ((slot0 + t') % s.depSize) ≠ 0 ∧
          slotGet b2 ((slot0 + t') % s.depSize) ≠ u * 2147483648 + v := by
        intro t' ht'
        have hne : (slot0 + t') % s.depSize ≠ (slot0 + t) % s.depSize := by
          intro he
          have := probe_pos_inj (n := s.depSize) (h := slot0)
            (by omega : t' < s.depSize) (by omega : t < s.depSize) he
          omega
        rw [hb2, slotGet_set_ne s.bindings _ (Ne.symm hne)]
        exact hpath t' ht'
      have hfinal := add_binding_loop_found s.depSize dc2 (u * 2147483648 + v)
        s.depSize slot0 b2 t (Nat.mod_lt _ hdS0) (by omega) ht hfound hpath2
      rw [hslot0] at hfinal
      rw [← he2, ← he3, ← hdS] at hfinal
      unfold add_binding
      rw [hfinal]

/-- C5 (amended): `add_edge` is idempotent provided the bindings filter is
not full when the repeat runs: if `add_edge(u,v)` returned normally and
`dcounter < dep_size`, running it again returns the same state unchanged.
(With a full filter even a repeat of an existing edge dies with
`DepTableFull`; see the counterexample.)  In particular
`add_edge(9,9); add_edge(9,9)` gives `get_edges(9) = [9]` and
`dcounter = 1`. -/
theorem add_edge_idempotent (s s' : DepState) (u v : Nat)
    (hlen : s.bindings.length = s.depSize)
    (h1 : hh_add_dep s u v = .ok s')
    (hroom : s'.dcounter < s'.depSize) :
    hh_add_dep s' u v = .ok s' ∧
    ((runAddEdges (depInit 3) [(9, 9), (9, 9)]).map
      (fun t => (hh_get_dep t 9, t.dcounter)) = .ok (.ok [9], 1)) := by
  constructor
  · have hdup := add_dep_then_duplicate s s' u v hlen h1 hroom
    obtain ⟨_, hw1, hw2, hx, hu, hv⟩ := hh_add_dep_fields s s' u v h1
    unfold hh_add_dep
    have hx' : depCheckShouldExit s' = .ok () := by
      unfold depCheckShouldExit at hx ⊢
      rw [hw1, hw2]
      by_cases hc : s.workerCanExit && s.workersShouldExit
      · rw [if_pos hc] at hx; simp at hx
      · rw [if_neg hc]
    rw [hx']
    dsimp only
    unfold add_dep
    rw [if_pos ⟨hu, hv⟩, hdup]
  · rfl

/-- C5 witness: the theorem applied to `add_edge(3, 4)` on a fresh 8-slot
table. -/
theorem add_edge_idempotent_witness :
    hh_add_dep ((hh_add_dep (depInit 3) 3 4).toOption.getD (depInit 0)) 3 4 =
      .ok ((hh_add_dep (depInit 3) 3 4).toOption.getD (depInit 0)) ∧
    ((runAddEdges (depInit 3) [(9, 9), (9, 9)]).map
      (fun t => (hh_get_dep t 9, t.dcounter)) = .ok (.ok [9], 1)) :=
  add_edge_idempotent (depInit 3)
    ((hh_add_dep (depInit 3) 3 4).toOption.getD (depInit 0)) 3 4
    rfl rfl (by decide)

/-- C5 counterexample: with a 4-slot table, after
`add_edge(1,0); add_edge(1,1); add_edge(1,2)` a single `add_edge(1,4)`
succeeds and fills the filter (`dcounter = 4`); running `add_edge(1,4)`
twice instead makes the second call die with `DepTableFull` (the edge's
home slot holds a different binding and the capacity check fires before
the duplicate is reached), so twice is not the same as once. -/
theorem add_edge_idempotent_cex :
    (runAddEdges (depInit 2) [(1, 0), (1, 1), (1, 2), (1, 4)]).toOption.isSome = true ∧
    (runAddEdges (depInit 2) [(1, 0), (1, 1), (1, 2), (1, 4)]).map
      (fun t => hh_add_dep t 1 4) = .ok (.error .depTableFull) := by
  exact ⟨by rfl, by rfl⟩

/-- C6 (amended): while `dcounter < dep_size` a duplicate `add_edge`
returns "duplicate" from the bindings filter and `DepTableFull` is never
raised — by any probe, duplicate or not; the capacity check can however
fire on the probe path of a duplicate once `dcounter` reaches
`dep_size`, i.e. the check does not gate only the claim of an empty slot
(see the counterexample). -/
theorem add_binding_duplicate_no_full (s s' : DepState) (u v w : Nat)
    (hlen : s.bindings.length = s.depSize)
    (h1 : hh_add_dep s u v = .ok s')
    (hroom : s'.dcounter < s'.depSize)
    (hdc : s.dcounter < s.depSize) :
    add_binding s' (u * 2147483648 + v) = .ok (false, s') ∧
    add_binding s w ≠ .error .depTableFull := by
  constructor
  · exact add_dep_then_duplicate s s' u v hlen h1 hroom
  · unfold add_binding
    cases hr : add_binding_loop s.depSize s.dcounter w s.depSize
        (hash_uint64 w % s.depSize) s.bindings with
    | error e =>
      have := add_binding_loop_no_full s.depSize s.dcounter w hdc
        s.depSize (hash_uint64 w % s.depSize) s.bindings
      rw [hr] at this
      intro hc
      cases hc
      exact this rfl
    | ok res => simp

/-- C6 witness: the theorem applied to `add_edge(3, 4)` on a fresh 8-slot
table, with `w = 77`. -/
theorem add_binding_duplicate_no_full_witness :
    add_binding ((hh_add_dep (depInit 3) 3 4).toOption.getD (depInit 0))
      (3 * 2147483648 + 4) =
      .ok (false, (hh_add_dep (depInit 3) 3 4).toOption.getD (depInit 0)) ∧
    add_binding (depInit 3) 77 ≠ .error .depTableFull :=
  add_binding_duplicate_no_full (depInit 3)
    ((hh_add_dep (depInit 3) 3 4).toOption.getD (depInit 0)) 3 4 77
    rfl rfl (by decide) (by decide)

/-- C6 counterexample: after `add_edge(1,0); add_edge(1,1); add_edge(1,2);
add_edge(1,4)` on a 4-slot table the edge `(1,4)` is present
(`get_edges(1) = [0,1,2,4]`), yet re-inserting its binding raises
`DepTableFull` instead of returning "duplicate": the `dcounter >=
dep_size` check runs at every probed slot, not only when claiming an
empty one. -/
theorem add_binding_duplicate_no_full_cex :
    (runAddEdges (depInit 2) [(1, 0), (1, 1), (1, 2), (1, 4)]).map
      (fun t => hh_get_dep t 1) = .ok (.ok [0, 1, 2, 4]) ∧
    (runAddEdges (depInit 2) [(1, 0), (1, 1), (1, 2), (1, 4)]).map
      (fun t => add_binding t (1 * 2147483648 + 4)) =
      .ok (.error .depTableFull) := by
  exact ⟨by rfl, by rfl⟩


/-!
### Claim C3: the compacting collector
-/

theorem heapOffsetsFrom_lb :
    ∀ (blocks : List HeapBlock) (start o : Nat),
    o ∈ heapOffsetsFrom blocks start → start ≤ o := by
  intro blocks
  induction blocks with
  | nil => intro start o h; simp [heapOffsetsFrom] at h
  | cons b rest ih =>
    intro start o h
    simp only [heapOffsetsFrom, List.mem_cons] at h
    rcases h with h | h
    · omega
    · have := ih (start + alignedSize b.header) o h
      omega

theorem heapOffsetsFrom_mem_block :
    ∀ (blocks : List HeapBlock) (start o : Nat),
    o ∈ heapOffsetsFrom blocks start →
    ∃ blk, blockAtFrom blocks start o = some blk := by
  intro blocks
  induction blocks with
  | nil => intro start o h; simp [heapOffsetsFrom] at h
  | cons b rest ih =>
    intro start o h
    simp only [heapOffsetsFrom, List.mem_cons] at h
    simp only [blockAtFrom]
    rcases h with h | h
    · subst h
      exact ⟨b, by rw [if_pos rfl]⟩
    · have hlb := heapOffsetsFrom_lb rest (start + alignedSize b.header) o h
      have hpos := alignedSize_pos b.header
      rw [if_neg (by omega)]
      exact ih (start + alignedSize b.header) o h

theorem heapOffsetsFrom_sorted :
    ∀ (blocks : List HeapBlock) (start : Nat),
    List.Pairwise (· < ·) (heapOffsetsFrom blocks start) := by
  intro blocks
  induction blocks with
  | nil => intro start; simp [heapOffsetsFrom]
  | cons b rest ih =>
    intro start
    simp only [heapOffsetsFrom]
    refine List.Pairwise.cons ?_ (ih _)
    intro o ho
    have := heapOffsetsFrom_lb rest (start + alignedSize b.header) o ho
    have := alignedSize_pos b.header
    omega

theorem offsets_map_asz :
    ∀ (blocks : List HeapBlock) (start : Nat),
    (heapOffsetsFrom blocks start).map (fun o =>
      match blockAtFrom blocks start o with
      | some blk => alignedSize blk.header
      | none => 0) = blocks.map (fun b => alignedSize b.header) := by
  intro blocks
  induction blocks with
  | nil => intro start; simp [heapOffsetsFrom]
  | cons b rest ih =>
    intro start
    simp only [heapOffsetsFrom, List.map_cons]
    congr 1
    · simp [blockAtFrom]
    have hstep : ∀ o ∈ heapOffsetsFrom rest (start + alignedSize b.header),
        (match blockAtFrom (b :: rest) start o with
          | some blk => alignedSize blk.header
          | none => 0) =
        (match blockAtFrom rest (start + alignedSize b.header) o with
          | some blk => alignedSize blk.header
          | none => 0) := by
      intro o ho
      have hlb := heapOffsetsFrom_lb rest (start + alignedSize b.header) o ho
      have hpos := alignedSize_pos b.header
      simp only [blockAtFrom]
      rw [if_neg (by omega)]
    rw [List.map_congr_left hstep]
    exact ih (start + alignedSize b.header)

theorem lookup_of_pairwise :
    ∀ (m : List (Nat × Nat)),
    List.Pairwise (fun p q : Nat × Nat => p.1 < q.1 ∧ p.2 < q.2) m →
    ∀ a c, (a, c) ∈ m → m.lookup a = some c := by
  intro m
  induction m with
  | nil => intro _ a c h; simp at h
  | cons p t ih =>
    intro hp a c hm
    obtain ⟨hpt, ht⟩ := List.pairwise_cons.mp hp
    rcases List.mem_cons.mp hm with he | hmem
    · rw [← he]
      simp [List.lookup]
    · have hlt := (hpt _ hmem).1
      have hne : a ≠ p.1 := by omega
      obtain ⟨p1, p2⟩ := p
      have hb : (a == p1) = false := beq_eq_false_iff_ne.mpr hne
      simp only [List.lookup, hb]
      exact ih ht a c hmem

theorem gcSweep_spec (tbl : List Helt) :
    ∀ (blocks : List HeapBlock) (src dst : Nat),
    ((gcSweep tbl blocks src dst).2.2 =
      dst + (((gcSweep tbl blocks src dst).1.map (fun b => alignedSize b.header)).sum)) ∧
    (∀ a c, (a, c) ∈ (gcSweep tbl blocks src dst).2.1 →
      isLive tbl a = true ∧ src ≤ a ∧ dst ≤ c ∧
      c ∈ heapOffsetsFrom (gcSweep tbl blocks src dst).1 dst ∧
      ∃ blk, blockAtFrom blocks src a = some blk ∧
        blockAtFrom (gcSweep tbl blocks src dst).1 dst c = some blk ∧
        c + alignedSize blk.header ≤ (gcSweep tbl blocks src dst).2.2) ∧
    (∀ a, a ∈ heapOffsetsFrom blocks src → isLive tbl a = true →
      ∃ c, (a, c) ∈ (gcSweep tbl blocks src dst).2.1) ∧
    (∀ c, c ∈ heapOffsetsFrom (gcSweep tbl blocks src dst).1 dst →
      ∃ a, (a, c) ∈ (gcSweep tbl blocks src dst).2.1) ∧
    List.Pairwise (fun p q : Nat × Nat => p.1 < q.1 ∧ p.2 < q.2)
      (gcSweep tbl blocks src dst).2.1 := by
  intro blocks
  induction blocks with
  | nil =>
    intro src dst
    simp [gcSweep, heapOffsetsFrom]
  | cons b rest ih =>
    intro src dst
    have hpos := alignedSize_pos b.header
    by_cases hl : isLive tbl src = true
    · have hred : gcSweep tbl (b :: rest) src dst =
          (b :: (gcSweep tbl rest (src + alignedSize b.header)
              (dst + alignedSize b.header)).1,
            (src, dst) :: (gcSweep tbl rest (src + alignedSize b.header)
              (dst + alignedSize b.header)).2.1,
            (gcSweep tbl rest (src + alignedSize b.header)
              (dst + alignedSize b.header)).2.2) := by
        simp only [gcSweep, hl, if_true]
      obtain ⟨hA, hB, hC, hD, hE⟩ := ih (src + alignedSize b.header)
        (dst + alignedSize b.header)
      rw [hred]
      dsimp only
      refine ⟨?_, ?_, ?_, ?_, ?_⟩
      · simp only [List.map_cons, List.sum_cons]
        omega
      · intro a c hm
        rcases List.mem_cons.mp hm with he | hmem
        · cases he
          refine ⟨hl, le_refl _, le_refl _, ?_, b, ?_, ?_, ?_⟩
          · simp [heapOffsetsFrom]
          · simp [blockAtFrom]
          · simp [blockAtFrom]
          · omega
        · obtain ⟨hlv, ha, hc, hoff, blk, h1, h2, h3⟩ := hB a c hmem
          refine ⟨hlv, by omega, by omega, ?_, blk, ?_, ?_, by omega⟩
          · simp only [heapOffsetsFrom, List.mem_cons]
            exact Or.inr hoff
          · simp only [blockAtFrom]
            rw [if_neg (by omega)]
            exact h1
          · simp only [blockAtFrom]
            rw [if_neg (by omega)]
            exact h2
      · intro a hao hlv
        simp only [heapOffsetsFrom, List.mem_cons] at hao
        rcases hao with he | hmem
        · subst he
          exact ⟨dst, List.mem_cons_self _ _⟩
        · obtain ⟨c, hc⟩ := hC a hmem hlv
          exact ⟨c, List.mem_cons_of_mem _ hc⟩
      · intro c hco
        simp only [heapOffsetsFrom, List.mem_cons] at hco
        rcases hco with he | hmem
        · subst he
          exact ⟨src, List.mem_cons_self _ _⟩
        · obtain ⟨a, ha⟩ := hD c hmem
          exact ⟨a, List.mem_cons_of_mem _ ha⟩
      · refine List.Pairwise.cons ?_ hE
        intro q hq
        obtain ⟨_, hqa, hqc, _, _⟩ := hB q.1 q.2 (by simpa using hq)
        constructor <;> omega
    · have hred : gcSweep tbl (b :: rest) src dst =
          gcSweep tbl rest (src + alignedSize b.header) dst := by
        simp only [gcSweep]
        rw [if_neg hl]
      obtain ⟨hA, hB, hC, hD, hE⟩ := ih (src + alignedSize b.header) dst
      rw [hred]
      refine ⟨hA, ?_, ?_, hD, hE⟩
      · intro a c hm
        obtain ⟨hlv, ha, hc, hoff, blk, h1, h2, h3⟩ := hB a c hm
        refine ⟨hlv, by omega, hc, hoff, blk, ?_, h2, h3⟩
        simp only [blockAtFrom]
        rw [if_neg (by omega)]
        exact h1
      · intro a hao hlv
        simp only [heapOffsetsFrom, List.mem_cons] at hao
        rcases hao with he | hmem
        · subst he
          exact absurd hlv hl
        · exact hC a hmem hlv

theorem heltD_map_remap (l : List Helt) (m : List (Nat × Nat)) (i : Nat) :
    heltD (l.map (fun e => { e with addr := remapAddr m e.addr })) i =
    { heltD l i with addr := remapAddr m (heltD l i).addr } := by
  simp only [heltD, List.getD_eq_getElem?_getD, List.getElem?_map]
  cases l[i]? with
  | none => rfl
  | some e => rfl

theorem find_slot_loop_remap (hash : Nat) (l : List Helt) (m : List (Nat × Nat))
    (size : Nat) : ∀ n slot,
    find_slot_loop hash (l.map (fun e => { e with addr := remapAddr m e.addr }))
      size n slot = find_slot_loop hash l size n slot := by
  intro n
  induction n with
  | zero => intro slot; rfl
  | succ n ih =>
    intro slot
    simp only [find_slot_loop, heltD_map_remap]
    rw [ih]

theorem addr_proj_eq (a : Addr) (off : Nat) :
    (match a with | Addr.ptr o => some o | _ => none) = some off ↔
    a = Addr.ptr off := by
  cases a with
  | null => simp
  | sentinel => simp
  | ptr o => simp

theorem mem_addr_filterMap (l : List Helt) (off : Nat) :
    off ∈ l.filterMap (fun e => match e.addr with
      | Addr.ptr o => some o
      | _ => none) ↔ ∃ e ∈ l, e.addr = Addr.ptr off := by
  simp only [List.mem_filterMap, addr_proj_eq]

theorem isLive_iff (tbl : List Helt) (off : Nat) :
    isLive tbl off = true ↔ ∃ e ∈ tbl, e.addr = Addr.ptr off := by
  simp [isLive, List.any_eq_true, beq_iff_eq]

theorem filterMap_addr_map_remap (m : List (Nat × Nat)) :
    ∀ (l : List Helt),
    (l.map (fun e => { e with addr := remapAddr m e.addr })).filterMap
      (fun e => match e.addr with
        | Addr.ptr o => some o
        | _ => none) =
    (l.filterMap (fun e => match e.addr with
        | Addr.ptr o => some o
        | _ => none)).map (fun o => (m.lookup o).getD 0) := by
  intro l
  induction l with
  | nil => rfl
  | cons e t ih =>
    obtain ⟨h0, a⟩ := e
    cases a with
    | null => simpa [remapAddr, List.filterMap_cons] using ih
    | sentinel => simpa [remapAddr, List.filterMap_cons] using ih
    | ptr o => simpa [remapAddr, List.filterMap_cons] using ih

theorem blockAtFrom_mem :
    ∀ (blocks : List HeapBlock) (start o : Nat) (blk : HeapBlock),
    blockAtFrom blocks start o = some blk → o ∈ heapOffsetsFrom blocks start := by
  intro blocks
  induction blocks with
  | nil => intro start o blk h; simp [blockAtFrom] at h
  | cons b rest ih =>
    intro start o blk h
    simp only [blockAtFrom] at h
    simp only [heapOffsetsFrom, List.mem_cons]
    by_cases he : start = o
    · exact Or.inl he.symm
    · rw [if_neg he] at h
      exact Or.inr (ih _ _ _ h)

theorem pairwise_snd_inj :
    ∀ (m : List (Nat × Nat)),
    List.Pairwise (fun p q : Nat × Nat => p.1 < q.1 ∧ p.2 < q.2) m →
    ∀ a a' c, (a, c) ∈ m → (a', c) ∈ m → a = a' := by
  intro m
  induction m with
  | nil => intro _ a a' c h; simp at h
  | cons p t ih =>
    intro hp a a' c h1 h2
    obtain ⟨hpt, ht⟩ := List.pairwise_cons.mp hp
    rcases List.mem_cons.mp h1 with e1 | m1 <;>
      rcases List.mem_cons.mp h2 with e2 | m2
    · have h := e1.trans e2.symm
      exact congrArg Prod.fst h
    · have h := hpt _ m2
      rw [← e1] at h
      exact absurd h.2 (lt_irrefl c)
    · have h := hpt _ m1
      rw [← e2] at h
      exact absurd h.2 (lt_irrefl c)
    · exact ih ht a a' c m1 m2

/-- C3 (amended): the spec states its postcondition for every
`hh_collect` run, but the collector returns the state — wasted bytes
included — untouched whenever `should_collect` is false (see the
counterexample).  Provided the predicate fires, a collection on a
well-formed store preserves every successful `get`, leaves every live
address below the new heap top, makes the live entries' aligned sizes
sum exactly to the new heap usage, and zeroes `wasted_heap_size`. -/
theorem hh_collect_spec (lz : Lz4) (aggressive : Bool) (s s' : VState)
    (hwf : VWF s)
    (hsc : should_collect aggressive (usedHeapSize s) s.wasted = true)
    (hcol : hh_collect aggressive s = .ok s') :
    (∀ hash v, hh_get_and_deserialize lz s hash = .ok v →
      hh_get_and_deserialize lz s' hash = .ok v) ∧
    (∀ off, off ∈ liveOffsets s' → off < usedHeapSize s') ∧
    liveAlignedSum s' = usedHeapSize s' ∧
    s'.wasted = 0 := by
  unfold hh_collect at hcol
  have hmas : s.isMaster = true := by
    cases h : s.isMaster
    · rw [if_neg (by simp [h])] at hcol; simp at hcol
    · rfl
  rw [if_pos hmas] at hcol
  have hrem : s.allowRemoves = true := by
    cases h : s.allowRemoves
    · rw [if_neg (by simp [h])] at hcol; simp at hcol
    · rfl
  rw [if_pos hrem, if_pos hsc] at hcol
  have hsent : s.hashtbl.any (fun e => e.addr == Addr.sentinel) = false := by
    cases h : s.hashtbl.any (fun e => e.addr == Addr.sentinel)
    · rfl
    · rw [if_pos h] at hcol; simp at hcol
  rw [if_neg (by simp [hsent])] at hcol
  injection hcol with hrec
  have hheap : s'.heap = (gcSweep s.hashtbl s.heap 0 0).1 := by
    rw [← hrec]
  have htbl : s'.hashtbl = s.hashtbl.map (fun e => { e with
      addr := remapAddr (gcSweep s.hashtbl s.heap 0 0).2.1 e.addr }) := by
    rw [← hrec]
  have hwas : s'.wasted = 0 := by rw [← hrec]
  have hsz : s'.hashtblSize = s.hashtblSize := by rw [← hrec]
  have hfl1 : s'.workerCanExit = s.workerCanExit := by rw [← hrec]
  have hfl2 : s'.workersShouldExit = s.workersShouldExit := by rw [← hrec]
  obtain ⟨hA, hB, hC, hD, hE⟩ := gcSweep_spec s.hashtbl s.heap 0 0
  have huse : usedHeapSize s' = (gcSweep s.hashtbl s.heap 0 0).2.2 := by
    unfold usedHeapSize
    rw [hheap, hA]
    omega
  have hkey : ∀ off, off ∈ liveOffsets s →
      ∃ c blk, (off, c) ∈ (gcSweep s.hashtbl s.heap 0 0).2.1 ∧
        (gcSweep s.hashtbl s.heap 0 0).2.1.lookup off = some c ∧
        c ∈ heapOffsetsFrom (gcSweep s.hashtbl s.heap 0 0).1 0 ∧
        blockAtFrom s.heap 0 off = some blk ∧
        blockAtFrom (gcSweep s.hashtbl s.heap 0 0).1 0 c = some blk ∧
        c + alignedSize blk.header ≤ (gcSweep s.hashtbl s.heap 0 0).2.2 := by
    intro off hoff
    simp only [liveOffsets] at hoff
    have hex := (mem_addr_filterMap s.hashtbl off).mp hoff
    have hlive : isLive s.hashtbl off = true := (isLive_iff s.hashtbl off).mpr hex
    have hmem : off ∈ heapOffsetsFrom s.heap 0 := by
      obtain ⟨e, he, hea⟩ := hex
      obtain ⟨i, hi, hie⟩ := List.mem_iff_getElem.mp he
      refine hwf.addrsValid i ?_ off ?_
      · rw [← hwf.len]; exact hi
      · rw [heltD_eq_getElem s.hashtbl i hi, hie]; exact hea
    obtain ⟨c, hcm⟩ := hC off hmem hlive
    obtain ⟨_, _, _, hcoff, blk, hb1, hb2, hb3⟩ := hB off c hcm
    exact ⟨c, blk, hcm, lookup_of_pairwise _ hE off c hcm, hcoff, hb1, hb2, hb3⟩
  have hlo : liveOffsets s' = (liveOffsets s).map
      (fun o => (((gcSweep s.hashtbl s.heap 0 0).2.1).lookup o).getD 0) := by
    simp only [liveOffsets]
    rw [htbl]
    exact filterMap_addr_map_remap _ s.hashtbl
  refine ⟨?_, ?_, ?_, hwas⟩
  · intro hash v hget
    have hchk : vCheckShouldExit s' = vCheckShouldExit s := by
      unfold vCheckShouldExit
      rw [hfl1, hfl2]
    have hfs : find_slot s' hash = find_slot s hash := by
      unfold find_slot
      rw [htbl, hsz, find_slot_loop_remap]
    unfold hh_get_and_deserialize at hget ⊢
    rw [hchk, hfs]
    cases hx : vCheckShouldExit s with
    | error e => rw [hx] at hget; simp at hget
    | ok u =>
      rw [hx] at hget
      dsimp only at hget ⊢
      cases hfsv : find_slot s hash with
      | error e => rw [hfsv] at hget; simp at hget
      | ok j =>
        rw [hfsv] at hget
        dsimp only at hget ⊢
        rw [htbl, heltD_map_remap]
        dsimp only
        by_cases hh : (heltD s.hashtbl j).hash = hash
        · rw [if_pos hh] at hget ⊢
          cases haddr : (heltD s.hashtbl j).addr with
          | null => rw [haddr] at hget; simp at hget
          | sentinel => rw [haddr] at hget; simp at hget
          | ptr off =>
            rw [haddr] at hget
            dsimp only at hget
            simp only [remapAddr]
            cases hblk : blockAt s.heap off with
            | none => rw [hblk] at hget; simp at hget
            | some blk =>
              rw [hblk] at hget
              have hjlt : j < s.hashtbl.length := by
                rw [hwf.len]; exact find_slot_lt s hash j hfsv
              have hoff_live : off ∈ liveOffsets s := by
                simp only [liveOffsets]
                refine (mem_addr_filterMap s.hashtbl off).mpr
                  ⟨heltD s.hashtbl j, ?_, haddr⟩
                rw [heltD_eq_getElem s.hashtbl j hjlt]
                exact List.getElem_mem hjlt
              obtain ⟨c, blk', hcm, hlk, hcoff, hb1, hb2, hb3⟩ :=
                hkey off hoff_live
              have hb1' : blockAt s.heap off = some blk' := hb1
              have hbe : blk' = blk := by
                have h := hb1'.symm.trans hblk
                injection h
              rw [hlk]
              simp only [Option.getD_some]
              rw [hheap]
              have hb2' : blockAt (gcSweep s.hashtbl s.heap 0 0).1 c =
                  some blk' := hb2
              rw [hb2', hbe]
              exact hget
        · rw [if_neg hh] at hget
          simp at hget
  · intro off hoff
    rw [hlo] at hoff
    obtain ⟨o, ho, hfo⟩ := List.mem_map.mp hoff
    obtain ⟨c, blk, hcm, hlk, hcoff, hb1, hb2, hb3⟩ := hkey o ho
    rw [huse]
    have hc : (((gcSweep s.hashtbl s.heap 0 0).2.1).lookup o).getD 0 = c := by
      rw [hlk]; rfl
    rw [← hfo, hc]
    have hpos := alignedSize_pos blk.header
    omega
  · have hnodupNew : (liveOffsets s').Nodup := by
      rw [hlo]
      refine List.Nodup.map_on ?_ hwf.addrsDistinct
      intro x hx y hy hxy
      obtain ⟨cx, blkx, hcmx, hlkx, _, _, _, _⟩ := hkey x hx
      obtain ⟨cy, blky, hcmy, hlky, _, _, _, _⟩ := hkey y hy
      rw [hlkx, hlky] at hxy
      simp only [Option.getD_some] at hxy
      rw [hxy] at hcmx
      exact pairwise_snd_inj _ hE x y cy hcmx hcmy
    have hnodupOff : (heapOffsetsFrom (gcSweep s.hashtbl s.heap 0 0).1 0).Nodup :=
      (heapOffsetsFrom_sorted _ 0).imp (fun h => Nat.ne_of_lt h)
    have hmemiff : ∀ c, c ∈ liveOffsets s' ↔
        c ∈ heapOffsetsFrom (gcSweep s.hashtbl s.heap 0 0).1 0 := by
      intro c
      constructor
      · intro hc
        rw [hlo] at hc
        obtain ⟨o, ho, hfo⟩ := List.mem_map.mp hc
        obtain ⟨c', blk, hcm, hlk, hcoff, _, _, _⟩ := hkey o ho
        have hgd : (((gcSweep s.hashtbl s.heap 0 0).2.1).lookup o).getD 0 = c' := by
          rw [hlk]; rfl
        rw [← hfo, hgd]
        exact hcoff
      · intro hc
        obtain ⟨a, ham⟩ := hD c hc
        obtain ⟨hlv, _, _, _, blk, hb1, _, _⟩ := hB a c ham
        have ha_live : a ∈ liveOffsets s := by
          simp only [liveOffsets]
          exact (mem_addr_filterMap s.hashtbl a).mpr
            ((isLive_iff s.hashtbl a).mp hlv)
        rw [hlo]
        refine List.mem_map.mpr ⟨a, ha_live, ?_⟩
        rw [lookup_of_pairwise _ hE a c ham]
        rfl
    have hperm : (liveOffsets s').Perm
        (heapOffsetsFrom (gcSweep s.hashtbl s.heap 0 0).1 0) :=
      (List.perm_ext_iff_of_nodup hnodupNew hnodupOff).mpr hmemiff
    have hsum := (hperm.map (fun off => match blockAt s'.heap off with
      | some blk => alignedSize blk.header
      | none => 0)).sum_eq
    unfold liveAlignedSum
    rw [hsum]
    simp only [hheap, blockAt]
    rw [offsets_map_asz]
    rw [huse, hA]
    omega

/-- C3 witness: the theorem applied to `c3Wit`, a well-formed master
store whose single 64-byte heap entry is garbage: the predicate fires
(`used = wasted = 64`, reachable 0) and collecting yields `c3WitAfter`
with an empty heap, live sizes summing to the (zero) usage, and a zeroed
wasted counter. -/
theorem hh_collect_spec_witness :
    should_collect false (usedHeapSize c3Wit) c3Wit.wasted = true ∧
    (liveAlignedSum c3WitAfter = usedHeapSize c3WitAfter ∧
      c3WitAfter.wasted = 0) :=
  ⟨by decide,
    (hh_collect_spec lzNone false c3Wit c3WitAfter
      (by
        refine ⟨rfl, ?_, by decide⟩
        intro i hi off h
        have hi4 : i < 4 := hi
        interval_cases i <;> simp [c3Wit, heltD] at h)
      (by decide) rfl).2.2⟩

/-- C3 counterexample: on `c3Cex` — master, removes allowed, three
64-byte entries of which the middle one was removed (`wasted = 64`) —
usage 192 is below twice the reachable 128, so `hh_collect` returns the
state unchanged: `wasted_heap_bytes` stays 64 and the live aligned sizes
(128) do not cover the heap extent (192), against the spec's
unconditional postcondition for a collector run. -/
theorem hh_collect_spec_cex :
    hh_collect false c3Cex = .ok c3Cex ∧
    c3Cex.isMaster = true ∧ c3Cex.allowRemoves = true ∧
    c3Cex.wasted ≠ 0 ∧
    liveAlignedSum c3Cex ≠ usedHeapSize c3Cex := by
  refine ⟨rfl, rfl, rfl, by decide, by decide⟩


/-!
### Claim C2: `add_edge` / `get_edges` exactness
-/

theorem comb_inj (u v u' v' : Nat) (hv : v < 2147483648) (hv' : v' < 2147483648)
    (h : u * 2147483648 + v = u' * 2147483648 + v') : u = u' ∧ v = v' := by
  omega

theorem comb_eq_zero (u v : Nat) :
    u * 2147483648 + v = 0 ↔ u = 0 ∧ v = 0 := by
  omega

theorem depKeyTag_one_ne_zero (e : Nat) (h : depKeyTag e = 1) : e ≠ 0 := by
  unfold depKeyTag at h
  omega

theorem depNextNum_lt (e : Nat) : depNextNum e < 2147483648 := by
  unfold depNextNum
  omega

theorem depNextTag_lt (e : Nat) : depNextTag e < 2 := by
  unfold depNextTag
  omega

theorem mkDepEntry_cell_eq_zero (a b c : Nat)
    (h : mkDepEntry a 0 b c = 0) : a = 0 ∧ b = 0 ∧ c = 0 := by
  unfold mkDepEntry at h
  omega

theorem slotGet_oob (l : List Nat) (i : Nat) (h : l.length ≤ i) :
    slotGet l i = 0 := by
  unfold slotGet
  rw [List.getD_eq_getElem?_getD, List.getElem?_eq_none (by omega)]
  rfl

theorem slotGet_set_mono (l : List Nat) (i a : Nat) (ha : a ≠ 0) :
    ∀ x, slotGet l x ≠ 0 → slotGet (l.set i a) x ≠ 0 := by
  intro x hx
  by_cases hxi : i = x
  · subst hxi
    have hlen : i < l.length := by
      by_contra hc
      exact hx (slotGet_oob l i (by omega))
    rw [slotGet_set_self l i a hlen]
    exact ha
  · rw [slotGet_set_ne l a hxi]
    exact hx

theorem probePath_mono (dt dt' : List Nat) (n h j : Nat)
    (hmono : ∀ x, slotGet dt x ≠ 0 → slotGet dt' x ≠ 0)
    (hp : ProbePath dt n h j) : ProbePath dt' n h j := by
  obtain ⟨t, ht, hj, hpre⟩ := hp
  exact ⟨t, ht, hj, fun t' ht' => hmono _ (hpre t' ht')⟩

theorem chainOK_frame (dt : List Nat) (x a : Nat) :
    ∀ (cs : List Nat) (nn nt : Nat) (vs : List Nat), x ∉ cs →
    chainOK dt nn nt cs vs → chainOK (dt.set x a) nn nt cs vs := by
  intro cs
  induction cs with
  | nil => intro nn nt vs _ h; exact h
  | cons c cs' ih =>
    intro nn nt vs hx h
    simp only [chainOK] at h ⊢
    obtain ⟨h1, h2, h3⟩ := h
    refine ⟨h1, h2, ?_⟩
    cases vs with
    | nil => exact h3
    | cons v vs' =>
      obtain ⟨hkn, hkt, hrest⟩ := h3
      have hne : x ≠ c := fun he => hx (he ▸ List.mem_cons_self c cs')
      rw [slotGet_set_ne dt a hne]
      exact ⟨hkn, hkt, ih _ _ _ (fun hm => hx (List.mem_cons_of_mem _ hm)) hrest⟩

theorem chainOK_cells_tag (dt : List Nat) :
    ∀ (cs : List Nat) (nn nt : Nat) (vs : List Nat),
    chainOK dt nn nt cs vs → ∀ c ∈ cs, depKeyTag (slotGet dt c) = 0 := by
  intro cs
  induction cs with
  | nil => intro nn nt vs _ c hc; simp at hc
  | cons c0 cs' ih =>
    intro nn nt vs h c hc
    simp only [chainOK] at h
    obtain ⟨h1, h2, h3⟩ := h
    cases vs with
    | nil => exact h3.elim
    | cons v vs' =>
      obtain ⟨hkn, hkt, hrest⟩ := h3
      rcases List.mem_cons.mp hc with he | hm
      · subst he
        exact hkt
      · exact ih _ _ _ hrest c hm

theorem nodup_lt_length_le (l : List Nat) (n : Nat) (hnd : l.Nodup)
    (hlt : ∀ x ∈ l, x < n) : l.length ≤ n := by
  have hsub : l ⊆ List.range n := fun x hx => List.mem_range.mpr (hlt x hx)
  simpa using (hnd.subperm hsub).length_le

theorem add_binding_loop_false_found (dS dc w : Nat) :
    ∀ (n slot : Nat) (b b' : List Nat) (dc' : Nat), slot < dS →
    add_binding_loop dS dc w n slot b = .ok (false, b', dc') →
    ∃ t, t < n ∧ slotGet b ((slot + t) % dS) = w := by
  intro n
  induction n with
  | zero => intro slot b b' dc' _ hrun; simp [add_binding_loop] at hrun
  | succ n ih =>
    intro slot b b' dc' hslot hrun
    simp only [add_binding_loop] at hrun
    by_cases h1 : b.getD slot 0 = w
    · refine ⟨0, by omega, ?_⟩
      rw [Nat.add_zero, Nat.mod_eq_of_lt hslot]
      exact h1
    · rw [if_neg h1] at hrun
      by_cases h2 : dS ≤ dc
      · rw [if_pos h2] at hrun
        simp at hrun
      · rw [if_neg h2] at hrun
        by_cases h3 : b.getD slot 0 = 0
        · rw [if_pos h3] at hrun
          simp at hrun
        · rw [if_neg h3] at hrun
          obtain ⟨t, ht, hfound⟩ := ih ((slot + 1) % dS) b b' dc'
            (Nat.mod_lt _ (by omega)) hrun
          refine ⟨t + 1, by omega, ?_⟩
          rw [show (slot + (t + 1)) % dS = ((slot + 1) % dS + t) % dS by
            rw [Nat.mod_add_mod]; congr 1; omega]
          exact hfound

theorem add_binding_loop_true_w_ne (dS dc : Nat) :
    ∀ (n slot : Nat) (b b' : List Nat) (dc' : Nat),
    add_binding_loop dS dc 0 n slot b = .ok (true, b', dc') → False := by
  intro n
  induction n with
  | zero => intro slot b b' dc' hrun; simp [add_binding_loop] at hrun
  | succ n ih =>
    intro slot b b' dc' hrun
    simp only [add_binding_loop] at hrun
    by_cases h1 : b.getD slot 0 = 0
    · rw [if_pos h1] at hrun
      simp at hrun
    · rw [if_neg h1] at hrun
      by_cases h2 : dS ≤ dc
      · rw [if_pos h2] at hrun
        simp at hrun
      · rw [if_neg h2, if_neg h1] at hrun
        exact ih _ b b' dc' hrun

theorem alloc_deptbl_node_loop_run (dS node : Nat) :
    ∀ (n slot : Nat) (dt : List Nat) (ls : Nat) (dt' : List Nat), slot < dS →
    alloc_deptbl_node_loop dS node n slot dt = .ok (ls, dt') →
    ls < dS ∧ slotGet dt ls = 0 ∧ dt' = dt.set ls node := by
  intro n
  induction n with
  | zero => intro slot dt ls dt' _ hrun; simp [alloc_deptbl_node_loop] at hrun
  | succ n ih =>
    intro slot dt ls dt' hslot hrun
    simp only [alloc_deptbl_node_loop] at hrun
    by_cases h1 : dt.getD slot 0 = 0
    · rw [if_pos h1] at hrun
      injection hrun with hp
      injection hp with he1 he2
      subst he1
      subst he2
      exact ⟨hslot, h1, rfl⟩
    · rw [if_neg h1] at hrun
      exact ih _ dt ls dt' (Nat.mod_lt _ (by omega)) hrun

theorem alloc_deptbl_node_run (dS key val : Nat) (dt : List Nat) (ls : Nat)
    (dt' : List Nat) (hdS : 0 < dS)
    (h : alloc_deptbl_node dS key val dt = .ok (ls, dt')) :
    ls < dS ∧ slotGet dt ls = 0 ∧
    dt' = dt.set ls (mkDepEntry val 0 2147483647 1) := by
  unfold alloc_deptbl_node at h
  exact alloc_deptbl_node_loop_run dS _ dS _ dt ls dt' (Nat.mod_lt _ hdS) h

theorem prepend_loop_run (dS key val : Nat) :
    ∀ (n slot : Nat) (dt dt' : List Nat), slot < dS →
    prepend_loop dS key val n slot dt = .ok dt' →
    ∃ t, t < n ∧
      (∀ t' < t, slotGet dt ((slot + t') % dS) ≠ 0 ∧
        ¬(depKeyNum (slotGet dt ((slot + t') % dS)) = key ∧
          depKeyTag (slotGet dt ((slot + t') % dS)) = 1)) ∧
      ((slotGet dt ((slot + t) % dS) = 0 ∧
        dt' = dt.set ((slot + t) % dS) (mkDepEntry key 1 val 0)) ∨
       (slotGet dt ((slot + t) % dS) ≠ 0 ∧
        depKeyNum (slotGet dt ((slot + t) % dS)) = key ∧
        depKeyTag (slotGet dt ((slot + t) % dS)) = 1 ∧
        ∃ ls, ls < dS ∧ slotGet dt ls = 0 ∧
          dt' = (dt.set ls (mkDepEntry val 0
              (depNextNum (slotGet dt ((slot + t) % dS)))
              (depNextTag (slotGet dt ((slot + t) % dS))))).set
            ((slot + t) % dS) (mkDepEntry key 1 ls 1))) := by
  intro n
  induction n with
  | zero => intro slot dt dt' _ hrun; simp [prepend_loop] at hrun
  | succ n ih =>
    intro slot dt dt' hslot hrun
    simp only [prepend_loop] at hrun
    by_cases h1 : dt.getD slot 0 = 0
    · rw [if_pos h1] at hrun
      injection hrun with he
      refine ⟨0, by omega, fun t' ht' => absurd ht' (by omega), Or.inl ?_⟩
      rw [Nat.add_zero, Nat.mod_eq_of_lt hslot]
      exact ⟨h1, he.symm⟩
    · rw [if_neg h1] at hrun
      by_cases h2 : depKeyNum (dt.getD slot 0) = key ∧ depKeyTag (dt.getD slot 0) = 1
      · rw [if_pos h2] at hrun
        cases halloc : alloc_deptbl_node dS key val dt with
        | error e => rw [halloc] at hrun; simp at hrun
        | ok p =>
          obtain ⟨ls, dt1⟩ := p
          rw [halloc] at hrun
          dsimp only at hrun
          injection hrun with he
          obtain ⟨hls, hlz, hdt1⟩ := alloc_deptbl_node_run dS key val dt ls dt1
            (by omega) halloc
          refine ⟨0, by omega, fun t' ht' => absurd ht' (by omega), Or.inr ?_⟩
          rw [Nat.add_zero, Nat.mod_eq_of_lt hslot]
          refine ⟨h1, h2.1, h2.2, ls, hls, hlz, ?_⟩
          rw [← he, hdt1, List.set_set]
          rfl
      · rw [if_neg h2] at hrun
        obtain ⟨t, ht, hpath, hout⟩ := ih ((slot + 1) % dS) dt dt'
          (Nat.mod_lt _ (by omega)) hrun
        have hpos : ∀ m, ((slot + 1) % dS + m) % dS = (slot + (m + 1)) % dS := by
          intro m
          rw [Nat.mod_add_mod]
          congr 1
          omega
        refine ⟨t + 1, by omega, ?_, ?_⟩
        · intro t' ht'
          cases t' with
          | zero =>
            rw [Nat.add_zero, Nat.mod_eq_of_lt hslot]
            exact ⟨h1, h2⟩
          | succ m =>
            rw [← hpos m]
            exact hpath m (by omega)
        · rw [← hpos t]
          exact hout

theorem hh_get_dep_loop_run (dS key : Nat) (dt : List Nat) :
    ∀ (n slot : Nat) (l : List Nat), slot < dS →
    hh_get_dep_loop dS key dt n slot = .ok l →
    ∃ t, t < n ∧
      (∀ t' < t, slotGet dt ((slot + t') % dS) ≠ 0 ∧
        ¬(depKeyNum (slotGet dt ((slot + t') % dS)) = key ∧
          depKeyTag (slotGet dt ((slot + t') % dS)) = 1)) ∧
      ((slotGet dt ((slot + t) % dS) = 0 ∧ l = []) ∨
       (slotGet dt ((slot + t) % dS) ≠ 0 ∧
        depKeyNum (slotGet dt ((slot + t) % dS)) = key ∧
        depKeyTag (slotGet dt ((slot + t) % dS)) = 1 ∧
        dep_walk_loop dS dt dS (slotGet dt ((slot + t) % dS)) [] = .ok l)) := by
  intro n
  induction n with
  | zero => intro slot l _ hrun; simp [hh_get_dep_loop] at hrun
  | succ n ih =>
    intro slot l hslot hrun
    simp only [hh_get_dep_loop] at hrun
    by_cases h1 : dt.getD slot 0 = 0
    · rw [if_pos h1] at hrun
      injection hrun with he
      refine ⟨0, by omega, fun t' ht' => absurd ht' (by omega), Or.inl ?_⟩
      rw [Nat.add_zero, Nat.mod_eq_of_lt hslot]
      exact ⟨h1, he.symm⟩
    · rw [if_neg h1] at hrun
      by_cases h2 : depKeyNum (dt.getD slot 0) = key ∧ depKeyTag (dt.getD slot 0) = 1
      · rw [if_pos h2] at hrun
        refine ⟨0, by omega, fun t' ht' => absurd ht' (by omega), Or.inr ?_⟩
        rw [Nat.add_zero, Nat.mod_eq_of_lt hslot]
        exact ⟨h1, h2.1, h2.2, hrun⟩
      · rw [if_neg h2] at hrun
        obtain ⟨t, ht, hpath, hout⟩ := ih ((slot + 1) % dS) l
          (Nat.mod_lt _ (by omega)) hrun
        have hpos : ∀ m, ((slot + 1) % dS + m) % dS = (slot + (m + 1)) % dS := by
          intro m
          rw [Nat.mod_add_mod]
          congr 1
          omega
        refine ⟨t + 1, by omega, ?_, ?_⟩
        · intro t' ht'
          cases t' with
          | zero =>
            rw [Nat.add_zero, Nat.mod_eq_of_lt hslot]
            exact ⟨h1, h2⟩
          | succ m =>
            rw [← hpos m]
            exact hpath m (by omega)
        · rw [← hpos t]
          exact hout

theorem dep_walk_loop_ok (dS : Nat) (dt : List Nat) :
    ∀ (cs : List Nat) (nn nt : Nat) (vs : List Nat) (e : Nat) (acc : List Nat)
      (fuel : Nat),
    chainOK dt nn nt cs vs → (∀ c ∈ cs, c < dS) →
    depNextNum e = nn → depNextTag e = nt → cs.length < fuel →
    dep_walk_loop dS dt fuel e acc = .ok (vs.reverse ++ acc) := by
  intro cs
  induction cs with
  | nil =>
    intro nn nt vs e acc fuel hch _ hn ht hf
    obtain ⟨ht0, hvs⟩ := hch
    cases fuel with
    | zero => omega
    | succ f =>
      simp only [dep_walk_loop]
      rw [ht, ht0]
      rw [if_neg (by omega : ¬(0 : Nat) = 1)]
      rw [hn, hvs]
      simp
  | cons c cs' ih =>
    intro nn nt vs e acc fuel hch hlt hn ht hf
    simp only [chainOK] at hch
    obtain ⟨ht1, hnc, hrest⟩ := hch
    cases vs with
    | nil => exact hrest.elim
    | cons v vs' =>
      obtain ⟨hkn, hkt, hch'⟩ := hrest
      cases fuel with
      | zero => simp at hf
      | succ f =>
        simp only [dep_walk_loop]
        rw [ht, ht1, if_pos rfl, hn, hnc]
        rw [if_pos (hlt c (List.mem_cons_self c cs'))]
        have hkn' : depKeyNum (dt.getD c 0) = v := hkn
        rw [hkn']
        have hres := ih (depNextNum (dt.getD c 0)) (depNextTag (dt.getD c 0)) vs'
          (dt.getD c 0) (v :: acc) f hch'
          (fun c' hc' => hlt c' (List.mem_cons_of_mem _ hc')) rfl rfl
          (by simp at hf ⊢; omega)
        rw [hres]
        simp

theorem match_slot_is_head (dS : Nat) (dt : List Nat) (E : List (Nat × Nat))
    (G : Nat → Option GEntry) (u j : Nat)
    (hG : DeptblG dS dt E G) (hj : j < dS)
    (hnz : slotGet dt j ≠ 0)
    (hknum : depKeyNum (slotGet dt j) = u)
    (hktag : depKeyTag (slotGet dt j) = 1) :
    ∃ g, G u = some g ∧ g.headSlot = j := by
  obtain ⟨u₀, g₀, hg₀, hmem⟩ := hG.complete j hj hnz
  simp only [GEntry.slots, List.mem_cons] at hmem
  rcases hmem with he | hm
  · subst he
    obtain ⟨hn0, ht0⟩ := hG.headKey u₀ g₀ hg₀
    have heu : u₀ = u := by rw [← hn0, hknum]
    subst heu
    exact ⟨g₀, hg₀, rfl⟩
  · have := chainOK_cells_tag dt g₀.cells _ _ g₀.vals (hG.chain u₀ g₀ hg₀) j hm
    rw [hktag] at this
    exact absurd this (by omega)

theorem no_zero_stop (dS : Nat) (dt : List Nat) (E : List (Nat × Nat))
    (G : Nat → Option GEntry) (u : Nat) (g : GEntry) (t : Nat)
    (hG : DeptblG dS dt E G) (hGu : G u = some g)
    (hz : slotGet dt ((hash_uint64 u % dS + t) % dS) = 0)
    (hpre : ∀ t' < t, slotGet dt ((hash_uint64 u % dS + t') % dS) ≠ 0 ∧
      ¬(depKeyNum (slotGet dt ((hash_uint64 u % dS + t') % dS)) = u ∧
        depKeyTag (slotGet dt ((hash_uint64 u % dS + t') % dS)) = 1)) : False := by
  obtain ⟨th, hth, hjh, hpreh⟩ := hG.headPath u g hGu
  obtain ⟨hn0, ht0⟩ := hG.headKey u g hGu
  rcases Nat.lt_trichotomy t th with hc | hc | hc
  · exact (hpreh t hc) hz
  · subst hc
    rw [hjh] at hz
    exact depKeyTag_one_ne_zero _ ht0 hz
  · refine (hpre th hc).2 ?_
    rw [hjh]
    exact ⟨hn0, ht0⟩

theorem deptblG_insert_new (dS : Nat) (dt : List Nat) (E : List (Nat × Nat))
    (G : Nat → Option GEntry) (u v j2 : Nat)
    (hG : DeptblG dS dt E G) (hlen : dt.length = dS)
    (hu : u < 2147483648) (hv : v < 2147483648)
    (hGu : G u = none)
    (hj2 : j2 < dS) (hz2 : slotGet dt j2 = 0)
    (hpath : ProbePath dt dS (hash_uint64 u % dS) j2) :
    DeptblG dS (dt.set j2 (mkDepEntry u 1 v 0)) (E ++ [(u, v)])
      (fun x => if x = u then some ⟨j2, [], [v]⟩ else G x) := by
  have hnoU : ∀ v', ((u : Nat), v') ∉ E := by
    intro v' hin
    have := (hG.keysMem u).mpr ⟨v', hin⟩
    rw [hGu] at this
    simp at this
  have hhead0 : mkDepEntry u 1 v 0 ≠ 0 := mkDepEntry_head_ne_zero u v 0
  have hfresh : ∀ x g', G x = some g' → ∀ c ∈ g'.slots, c ≠ j2 := by
    intro x g' hx c hc he
    exact (hG.slotsNonzero x g' hx c hc) (he ▸ hz2)
  have hframe : ∀ x g', G x = some g' → ∀ c ∈ g'.slots,
      slotGet (dt.set j2 (mkDepEntry u 1 v 0)) c = slotGet dt c := by
    intro x g' hx c hc
    exact slotGet_set_ne dt _ (fun he => hfresh x g' hx c hc he.symm)
  have hself : slotGet (dt.set j2 (mkDepEntry u 1 v 0)) j2 = mkDepEntry u 1 v 0 :=
    slotGet_set_self dt j2 _ (by omega)
  refine ⟨?_, ?_, ?_, ?_, ?_, ?_, ?_, ?_, ?_, ?_, ?_, ?_⟩
  · intro x
    by_cases hxu : x = u
    · subst hxu
      simp only [if_pos rfl]
      constructor
      · intro _
        exact ⟨v, List.mem_append_right _ (by simp)⟩
      · intro _
        simp
    · simp only [if_neg hxu]
      rw [hG.keysMem x]
      constructor
      · rintro ⟨v', hv'⟩
        exact ⟨v', List.mem_append_left _ hv'⟩
      · rintro ⟨v', hv'⟩
        rcases List.mem_append.mp hv' with h | h
        · exact ⟨v', h⟩
        · simp at h
          exact absurd h.1 hxu
  · intro x g hx
    by_cases hxu : x = u
    · subst hxu
      rw [if_pos rfl] at hx
      injection hx with hg
      subst hg
      exact hj2
    · rw [if_neg hxu] at hx
      exact hG.headLt x g hx
  · intro x g hx
    by_cases hxu : x = u
    · subst hxu
      rw [if_pos rfl] at hx
      injection hx with hg
      subst hg
      intro c hc
      simp at hc
    · rw [if_neg hxu] at hx
      exact hG.cellsLt x g hx
  · intro x g hx
    by_cases hxu : x = u
    · subst hxu
      rw [if_pos rfl] at hx
      injection hx with hg
      subst hg
      constructor
      · rw [hself, depKeyNum_mk x 1 v 0 hu]
      · rw [hself, depKeyTag_mk x 1 v 0 hu (by omega)]
    · rw [if_neg hxu] at hx
      have hfr := hframe x g hx g.headSlot (List.mem_cons_self _ _)
      rw [hfr]
      exact hG.headKey x g hx
  · intro x g hx
    by_cases hxu : x = u
    · subst hxu
      rw [if_pos rfl] at hx
      injection hx with hg
      subst hg
      rw [hself, depNextNum_mk x 1 v 0 hu (by omega) hv,
        depNextTag_mk x 1 v 0 hu (by omega) hv (by omega)]
      simp [chainOK]
    · rw [if_neg hxu] at hx
      have hfr := hframe x g hx g.headSlot (List.mem_cons_self _ _)
      rw [hfr]
      refine chainOK_frame dt j2 _ g.cells _ _ g.vals ?_ (hG.chain x g hx)
      intro hm
      exact hfresh x g hx j2 (List.mem_cons_of_mem _ hm) rfl
  · intro x g hx
    by_cases hxu : x = u
    · subst hxu
      rw [if_pos rfl] at hx
      injection hx with hg
      subst hg
      intro v'
      simp only [List.mem_singleton]
      constructor
      · intro he
        subst he
        exact List.mem_append_right _ (by simp)
      · intro hin
        rcases List.mem_append.mp hin with h | h
        · exact absurd h (hnoU v')
        · simp at h
          exact h
    · rw [if_neg hxu] at hx
      intro v'
      rw [hG.valsMem x g hx v']
      constructor
      · exact List.mem_append_left _
      · intro hin
        rcases List.mem_append.mp hin with h | h
        · exact h
        · simp at h
          exact absurd h.1 hxu
  · intro x g hx
    by_cases hxu : x = u
    · subst hxu
      rw [if_pos rfl] at hx
      injection hx with hg
      subst hg
      simp
    · rw [if_neg hxu] at hx
      exact hG.valsNodup x g hx
  · intro x g hx
    by_cases hxu : x = u
    · subst hxu
      rw [if_pos rfl] at hx
      injection hx with hg
      subst hg
      simp [GEntry.slots]
    · rw [if_neg hxu] at hx
      exact hG.slotsNodup x g hx
  · intro x x' g g' hne hx hx' c hc
    by_cases hxu : x = u
    · subst hxu
      rw [if_pos rfl] at hx
      injection hx with hg
      subst hg
      simp only [GEntry.slots, List.mem_cons, List.not_mem_nil, or_false] at hc
      subst hc
      rw [if_neg (fun he : x' = x => hne he.symm)] at hx'
      intro hmem
      exact hfresh x' g' hx' c hmem rfl
    · rw [if_neg hxu] at hx
      by_cases hxu' : x' = u
      · subst hxu'
        rw [if_pos rfl] at hx'
        injection hx' with hg'
        subst hg'
        simp only [GEntry.slots, List.mem_cons, List.not_mem_nil, or_false]
        exact hfresh x g hx c hc
      · rw [if_neg hxu'] at hx'
        exact hG.slotsDisj x x' g g' hne hx hx' c hc
  · intro x g hx c hc
    by_cases hxu : x = u
    · subst hxu
      rw [if_pos rfl] at hx
      injection hx with hg
      subst hg
      simp only [GEntry.slots, List.mem_cons, List.not_mem_nil, or_false] at hc
      subst hc
      rw [hself]
      exact hhead0
    · rw [if_neg hxu] at hx
      rw [hframe x g hx c hc]
      exact hG.slotsNonzero x g hx c hc
  · intro i hi hnz
    by_cases hij : i = j2
    · subst hij
      exact ⟨u, ⟨i, [], [v]⟩, by rw [if_pos rfl], by simp [GEntry.slots]⟩
    · rw [slotGet_set_ne dt _ (fun he => hij he.symm)] at hnz
      obtain ⟨x, g, hx, hmem⟩ := hG.complete i hi hnz
      have hxu : x ≠ u := by
        intro he
        rw [he, hGu] at hx
        exact absurd hx (by simp)
      exact ⟨x, g, by rw [if_neg hxu]; exact hx, hmem⟩
  · intro x g hx
    by_cases hxu : x = u
    · subst hxu
      rw [if_pos rfl] at hx
      injection hx with hg
      subst hg
      exact probePath_mono dt _ dS _ _ (slotGet_set_mono dt j2 _ hhead0) hpath
    · rw [if_neg hxu] at hx
      exact probePath_mono dt _ dS _ _ (slotGet_set_mono dt j2 _ hhead0)
        (hG.headPath x g hx)

set_option maxRecDepth 4000 in
theorem deptblG_insert_cell (dS : Nat) (dt : List Nat) (E : List (Nat × Nat))
    (G : Nat → Option GEntry) (u v ls : Nat) (g : GEntry)
    (hG : DeptblG dS dt E G) (hlen : dt.length = dS) (hdSle : dS ≤ 2147483648)
    (hu : u < 2147483648) (hv : v < 2147483648)
    (hGu : G u = some g) (hnotin : ((u : Nat), (v : Nat)) ∉ E)
    (hls : ls < dS) (hlz : slotGet dt ls = 0) :
    DeptblG dS ((dt.set ls (mkDepEntry v 0
        (depNextNum (slotGet dt g.headSlot))
        (depNextTag (slotGet dt g.headSlot)))).set
        g.headSlot (mkDepEntry u 1 ls 1)) (E ++ [(u, v)])
      (fun x => if x = u then some ⟨g.headSlot, ls :: g.cells, v :: g.vals⟩
        else G x) := by
  obtain ⟨hn0, ht0⟩ := hG.headKey u g hGu
  have hch := hG.chain u g hGu
  have hsnz := hG.slotsNonzero u g hGu
  have hsn := hG.slotsNodup u g hGu
  have hhs : g.headSlot < dS := hG.headLt u g hGu
  have hhs0 : slotGet dt g.headSlot ≠ 0 := depKeyTag_one_ne_zero _ ht0
  have hlshs : ls ≠ g.headSlot := fun he => hhs0 (he ▸ hlz)
  set cellv := mkDepEntry v 0 (depNextNum (slotGet dt g.headSlot))
    (depNextTag (slotGet dt g.headSlot)) with hcellv
  set headv := mkDepEntry u 1 ls 1 with hheadv
  set dtn := (dt.set ls cellv).set g.headSlot headv with hdtn
  have hselfh : slotGet dtn g.headSlot = headv := by
    rw [hdtn]
    refine slotGet_set_self _ _ _ ?_
    rw [List.length_set]
    omega
  have hselfl : slotGet dtn ls = cellv := by
    rw [hdtn]
    rw [slotGet_set_ne _ _ (fun he => hlshs he.symm)]
    exact slotGet_set_self _ _ _ (by omega)
  have hother : ∀ c, c ≠ ls → c ≠ g.headSlot → slotGet dtn c = slotGet dt c := by
    intro c hc1 hc2
    rw [hdtn, slotGet_set_ne _ _ (fun he => hc2 he.symm),
      slotGet_set_ne _ _ (fun he => hc1 he.symm)]
  have hheadnz : headv ≠ 0 := by
    rw [hheadv]
    exact mkDepEntry_head_ne_zero u ls 1
  have hcellnz : cellv ≠ 0 := by
    rw [hcellv]
    intro hz
    obtain ⟨hv0, hnn0, hnt0⟩ := mkDepEntry_cell_eq_zero _ _ _ hz
    cases hcs : g.cells with
    | nil =>
      rw [hcs] at hch
      simp only [chainOK] at hch
      obtain ⟨hx1, hvals⟩ := hch
      have h0v : (0 : Nat) ∈ g.vals := by
        rw [hvals, hnn0]
        simp
      have hmem := (hG.valsMem u g hGu 0).mp h0v
      rw [← hv0] at hmem
      exact hnotin hmem
    | cons c cs' =>
      rw [hcs] at hch
      simp only [chainOK] at hch
      rw [hnt0] at hch
      exact absurd hch.1 (by omega)
  have hcellfacts : depKeyNum cellv = v ∧ depKeyTag cellv = 0 ∧
      depNextNum cellv = depNextNum (slotGet dt g.headSlot) ∧
      depNextTag cellv = depNextTag (slotGet dt g.headSlot) := by
    rw [hcellv]
    refine ⟨depKeyNum_mk _ _ _ _ hv, depKeyTag_mk _ _ _ _ hv (by omega), ?_, ?_⟩
    · exact depNextNum_mk _ _ _ _ hv (by omega) (depNextNum_lt _)
    · exact depNextTag_mk _ _ _ _ hv (by omega) (depNextNum_lt _) (depNextTag_lt _)
  have hheadfacts : depKeyNum headv = u ∧ depKeyTag headv = 1 ∧
      depNextNum headv = ls ∧ depNextTag headv = 1 := by
    rw [hheadv]
    refine ⟨depKeyNum_mk _ _ _ _ hu, depKeyTag_mk _ _ _ _ hu (by omega), ?_, ?_⟩
    · exact depNextNum_mk _ _ _ _ hu (by omega) (by omega)
    · exact depNextTag_mk _ _ _ _ hu (by omega) (by omega) (by omega)
  have hlsnotcell : ls ∉ g.cells := fun hm =>
    hsnz ls (List.mem_cons_of_mem _ hm) hlz
  have hhsnotcell : g.headSlot ∉ g.cells := by
    simp only [GEntry.slots] at hsn
    exact (List.nodup_cons.mp hsn).1
  have hcellsnodup : g.cells.Nodup := by
    simp only [GEntry.slots] at hsn
    exact (List.nodup_cons.mp hsn).2
  have hfreshOther : ∀ x g', x ≠ u → G x = some g' → ∀ c ∈ g'.slots,
      c ≠ ls ∧ c ≠ g.headSlot := by
    intro x g' hxu hx c hc
    constructor
    · exact fun he => hG.slotsNonzero x g' hx c hc (he ▸ hlz)
    · intro he
      exact hG.slotsDisj x u g' g hxu hx hGu c hc
        (by rw [he]; exact List.mem_cons_self _ _)
  have hframe : ∀ x g', x ≠ u → G x = some g' → ∀ c ∈ g'.slots,
      slotGet dtn c = slotGet dt c := by
    intro x g' hxu hx c hc
    obtain ⟨h1, h2⟩ := hfreshOther x g' hxu hx c hc
    exact hother c h1 h2
  have hmono : ∀ x, slotGet dt x ≠ 0 → slotGet dtn x ≠ 0 := by
    intro x hx
    rw [hdtn]
    exact slotGet_set_mono _ _ _ hheadnz _ (slotGet_set_mono _ _ _ hcellnz _ hx)
  have hchainnew : chainOK dtn (depNextNum (slotGet dtn g.headSlot))
      (depNextTag (slotGet dtn g.headSlot)) (ls :: g.cells) (v :: g.vals) := by
    rw [hselfh, hheadfacts.2.2.1, hheadfacts.2.2.2]
    simp only [chainOK]
    refine ⟨trivial, trivial, ?_, ?_, ?_⟩
    · rw [hselfl]
      exact hcellfacts.1
    · rw [hselfl]
      exact hcellfacts.2.1
    · rw [hselfl, hcellfacts.2.2.1, hcellfacts.2.2.2, hdtn]
      exact chainOK_frame (dt.set ls cellv) g.headSlot headv g.cells _ _ g.vals
        hhsnotcell (chainOK_frame dt ls cellv g.cells _ _ g.vals hlsnotcell hch)
  refine ⟨?_, ?_, ?_, ?_, ?_, ?_, ?_, ?_, ?_, ?_, ?_, ?_⟩
  · intro x
    by_cases hxu : x = u
    · subst hxu
      simp only [if_pos rfl]
      constructor
      · intro _
        exact ⟨v, List.mem_append_right _ (by simp)⟩
      · intro _
        simp
    · simp only [if_neg hxu]
      rw [hG.keysMem x]
      constructor
      · rintro ⟨v', hv'⟩
        exact ⟨v', List.mem_append_left _ hv'⟩
      · rintro ⟨v', hv'⟩
        rcases List.mem_append.mp hv' with h | h
        · exact ⟨v', h⟩
        · simp at h
          exact absurd h.1 hxu
  · intro x gx hx
    by_cases hxu : x = u
    · subst hxu
      rw [if_pos rfl] at hx
      have hg := Option.some.inj hx
      subst hg
      exact hhs
    · rw [if_neg hxu] at hx
      exact hG.headLt x gx hx
  · intro x gx hx
    by_cases hxu : x = u
    · subst hxu
      rw [if_pos rfl] at hx
      have hg := Option.some.inj hx
      subst hg
      intro c hc
      rcases List.mem_cons.mp hc with he | hm
      · subst he
        exact hls
      · exact hG.cellsLt x g hGu c hm
    · rw [if_neg hxu] at hx
      exact hG.cellsLt x gx hx
  · intro x gx hx
    by_cases hxu : x = u
    · subst hxu
      rw [if_pos rfl] at hx
      have hg := Option.some.inj hx
      subst hg
      constructor
      · rw [hselfh]
        exact hheadfacts.1
      · rw [hselfh]
        exact hheadfacts.2.1
    · rw [if_neg hxu] at hx
      rw [hframe x gx hxu hx gx.headSlot (List.mem_cons_self _ _)]
      exact hG.headKey x gx hx
  · intro x gx hx
    by_cases hxu : x = u
    · subst hxu
      rw [if_pos rfl] at hx
      have hg := Option.some.inj hx
      subst hg
      exact hchainnew
    · rw [if_neg hxu] at hx
      rw [hframe x gx hxu hx gx.headSlot (List.mem_cons_self _ _), hdtn]
      refine chainOK_frame (dt.set ls cellv) g.headSlot headv gx.cells _ _ gx.vals
        ?_ (chainOK_frame dt ls cellv gx.cells _ _ gx.vals ?_ (hG.chain x gx hx))
      · intro hm
        exact (hfreshOther x gx hxu hx g.headSlot
          (List.mem_cons_of_mem _ hm)).2 rfl
      · intro hm
        exact (hfreshOther x gx hxu hx ls
          (List.mem_cons_of_mem _ hm)).1 rfl
  · intro x gx hx
    by_cases hxu : x = u
    · subst hxu
      rw [if_pos rfl] at hx
      have hg := Option.some.inj hx
      subst hg
      intro v'
      constructor
      · intro hin
        rcases List.mem_cons.mp hin with he | hm
        · subst he
          exact List.mem_append_right _ (by simp)
        · exact List.mem_append_left _ ((hG.valsMem x g hGu v').mp hm)
      · intro hin
        rcases List.mem_append.mp hin with h | h
        · exact List.mem_cons_of_mem _ ((hG.valsMem x g hGu v').mpr h)
        · simp at h
          rw [h]
          exact List.mem_cons_self _ _
    · rw [if_neg hxu] at hx
      intro v'
      rw [hG.valsMem x gx hx v']
      constructor
      · exact List.mem_append_left _
      · intro hin
        rcases List.mem_append.mp hin with h | h
        · exact h
        · simp at h
          exact absurd h.1 hxu
  · intro x gx hx
    by_cases hxu : x = u
    · subst hxu
      rw [if_pos rfl] at hx
      have hg := Option.some.inj hx
      subst hg
      rw [List.nodup_cons]
      exact ⟨fun hm => hnotin ((hG.valsMem x g hGu v).mp hm), hG.valsNodup x g hGu⟩
    · rw [if_neg hxu] at hx
      exact hG.valsNodup x gx hx
  · intro x gx hx
    by_cases hxu : x = u
    · subst hxu
      rw [if_pos rfl] at hx
      have hg := Option.some.inj hx
      subst hg
      simp only [GEntry.slots, List.nodup_cons, List.mem_cons]
      push_neg
      refine ⟨⟨fun he => hlshs he.symm, hhsnotcell⟩, hlsnotcell, hcellsnodup⟩
    · rw [if_neg hxu] at hx
      exact hG.slotsNodup x gx hx
  · intro x x' gx gx' hne hx hx' c hc
    by_cases hxu : x = u
    · subst hxu
      rw [if_pos rfl] at hx
      have hg := Option.some.inj hx
      subst hg
      rw [if_neg (fun he : x' = x => hne he.symm)] at hx'
      simp only [GEntry.slots, List.mem_cons] at hc
      intro hmem
      rcases hc with he | he | hm
      · exact (hfreshOther x' gx' (fun h2 => hne h2.symm) hx' c hmem).2 he
      · exact (hfreshOther x' gx' (fun h2 => hne h2.symm) hx' c hmem).1 he
      · exact hG.slotsDisj x x' g gx' hne hGu hx' c
          (List.mem_cons_of_mem _ hm) hmem
    · rw [if_neg hxu] at hx
      by_cases hxu' : x' = u
      · subst hxu'
        rw [if_pos rfl] at hx'
        have hg' := Option.some.inj hx'
        subst hg'
        simp only [GEntry.slots, List.mem_cons]
        intro hmem
        obtain ⟨hc1, hc2⟩ := hfreshOther x gx hxu hx c hc
        rcases hmem with he | he | hm
        · exact hc2 he
        · exact hc1 he
        · exact hG.slotsDisj x x' gx g hxu hx hGu c hc (List.mem_cons_of_mem _ hm)
      · rw [if_neg hxu'] at hx'
        exact hG.slotsDisj x x' gx gx' hne hx hx' c hc
  · intro x gx hx c hc
    by_cases hxu : x = u
    · subst hxu
      rw [if_pos rfl] at hx
      have hg := Option.some.inj hx
      subst hg
      simp only [GEntry.slots, List.mem_cons] at hc
      rcases hc with he | he | hm
      · subst he
        rw [hselfh]
        exact hheadnz
      · subst he
        rw [hselfl]
        exact hcellnz
      · rw [hother c (fun he => hlsnotcell (he ▸ hm))
          (fun he => hhsnotcell (he ▸ hm))]
        exact hsnz c (List.mem_cons_of_mem _ hm)
    · rw [if_neg hxu] at hx
      rw [hframe x gx hxu hx c hc]
      exact hG.slotsNonzero x gx hx c hc
  · intro i hi hnz
    by_cases hih : i = g.headSlot
    · refine ⟨u, ⟨g.headSlot, ls :: g.cells, v :: g.vals⟩, ?_, ?_⟩
      · simp
      · rw [hih]
        simp [GEntry.slots]
    · by_cases hil : i = ls
      · refine ⟨u, ⟨g.headSlot, ls :: g.cells, v :: g.vals⟩, ?_, ?_⟩
        · simp
        · rw [hil]
          simp [GEntry.slots]
      · rw [hother i hil hih] at hnz
        obtain ⟨x, gx, hx, hmem⟩ := hG.complete i hi hnz
        by_cases hxu : x = u
        · subst hxu
          rw [hGu] at hx
          have hg' := Option.some.inj hx
          subst hg'
          refine ⟨x, ⟨g.headSlot, ls :: g.cells, v :: g.vals⟩, ?_, ?_⟩
          · simp
          · simp only [GEntry.slots, List.mem_cons] at hmem ⊢
            rcases hmem with h | h
            · exact Or.inl h
            · exact Or.inr (Or.inr h)
        · exact ⟨x, gx, by rw [if_neg hxu]; exact hx, hmem⟩
  · intro x gx hx
    by_cases hxu : x = u
    · subst hxu
      rw [if_pos rfl] at hx
      have hg := Option.some.inj hx
      subst hg
      exact probePath_mono dt dtn dS _ _ hmono (hG.headPath x g hGu)
    · rw [if_neg hxu] at hx
      exact probePath_mono dt dtn dS _ _ hmono (hG.headPath x gx hx)

theorem hh_add_dep_preserves (s s' : DepState) (E : List (Nat × Nat)) (u v : Nat)
    (hinv : DepInv s E) (hrun : hh_add_dep s u v = .ok s') :
    ∃ E', DepInv s' E' ∧
      ∀ p, p ∈ E' ↔ (p ∈ E ∨ (p = (u, v) ∧ p ≠ ((0 : Nat), (0 : Nat)))) := by
  obtain ⟨hdS, hwse, hwce, hx, hu, hv⟩ := hh_add_dep_fields s s' u v hrun
  unfold hh_add_dep at hrun
  rw [hx] at hrun
  dsimp only at hrun
  unfold add_dep at hrun
  rw [if_pos ⟨hu, hv⟩] at hrun
  unfold add_binding at hrun
  cases hr : add_binding_loop s.depSize s.dcounter (u * 2147483648 + v)
      s.depSize (hash_uint64 (u * 2147483648 + v) % s.depSize) s.bindings with
  | error e => rw [hr] at hrun; simp at hrun
  | ok res =>
    obtain ⟨isNew, b2, dc2⟩ := res
    rw [hr] at hrun
    dsimp only at hrun
    cases isNew with
    | false =>
      obtain ⟨hb2, hdc2⟩ := add_binding_loop_false _ _ _ _ _ _ _ _ hr
      subst hb2
      subst hdc2
      cases hrun
      refine ⟨E, hinv, ?_⟩
      intro p
      constructor
      · exact fun hp => Or.inl hp
      · rintro (hp | ⟨hpe, hpne⟩)
        · exact hp
        · subst hpe
          have hw0 : u * 2147483648 + v ≠ 0 := by
            intro hww
            obtain ⟨h1, h2⟩ := (comb_eq_zero u v).mp hww
            subst h1
            subst h2
            exact hpne rfl
          obtain ⟨t, ht, hfound⟩ := add_binding_loop_false_found s.depSize
            s.dcounter (u * 2147483648 + v) s.depSize
            (hash_uint64 (u * 2147483648 + v) % s.depSize)
            s.bindings s.bindings s.dcounter (Nat.mod_lt _ hinv.sizePos) hr
          obtain ⟨p2, hpE, hpw⟩ := (hinv.bindMem _ hw0).mp
            ⟨(hash_uint64 (u * 2147483648 + v) % s.depSize + t) % s.depSize,
              Nat.mod_lt _ hinv.sizePos, hfound⟩
          obtain ⟨q1, q2⟩ := p2
          obtain ⟨he1, he2⟩ := comb_inj q1 q2 u v (hinv.edgesValid _ hpE).2.1 hv hpw
          subst he1
          subst he2
          exact hpE
    | true =>
      obtain ⟨hdc2, t, ht, hb2, hz, hpath⟩ := add_binding_loop_true s.depSize
        s.dcounter (u * 2147483648 + v) s.depSize
        (hash_uint64 (u * 2147483648 + v) % s.depSize)
        s.bindings b2 dc2 (Nat.mod_lt _ hinv.sizePos) hr
      subst hdc2
      subst hb2
      have hw0 : u * 2147483648 + v ≠ 0 := by
        intro hww
        rw [hww] at hr
        exact add_binding_loop_true_w_ne s.depSize s.dcounter s.depSize _
          s.bindings _ _ hr
      have hpne : ((u : Nat), (v : Nat)) ≠ ((0 : Nat), (0 : Nat)) := by
        intro he
        injection he with h1 h2
        rw [h1, h2] at hw0
        exact hw0 rfl
      have hnotin : ((u : Nat), (v : Nat)) ∉ E := by
        intro hin
        obtain ⟨i, hi, hslotw⟩ := (hinv.bindMem _ hw0).mpr ⟨(u, v), hin, rfl⟩
        have hpp := hinv.bindPath i hi (by rw [hslotw]; exact hw0)
        rw [hslotw] at hpp
        obtain ⟨tw, htw, hjw, hprew⟩ := hpp
        rcases Nat.lt_trichotomy tw t with hc | hc | hc
        · exact (hpath tw hc).2 (by rw [hjw]; exact hslotw)
        · subst hc
          rw [hjw] at hz
          exact hw0 (hslotw.symm.trans hz)
        · exact (hprew t hc) hz
      set j := (hash_uint64 (u * 2147483648 + v) % s.depSize + t) % s.depSize
        with hjdef
      have hj : j < s.depSize := Nat.mod_lt _ hinv.sizePos
      have hjlen : j < s.bindings.length := by
        rw [hinv.lenB]
        exact hj
      have hbset_self : slotGet (s.bindings.set j (u * 2147483648 + v)) j
          = u * 2147483648 + v := slotGet_set_self _ _ _ hjlen
      have hbset_ne : ∀ i, i ≠ j →
          slotGet (s.bindings.set j (u * 2147483648 + v)) i
          = slotGet s.bindings i := fun i hi =>
        slotGet_set_ne _ _ (fun he => hi he.symm)
      have hBindMem : ∀ w', w' ≠ 0 →
          ((∃ i, i < s.depSize ∧
            slotGet (s.bindings.set j (u * 2147483648 + v)) i = w') ↔
            ∃ p ∈ E ++ [(u, v)], p.1 * 2147483648 + p.2 = w') := by
        intro w' hw'
        constructor
        · rintro ⟨i, hi, hsl⟩
          by_cases hij : i = j
          · subst hij
            rw [hbset_self] at hsl
            exact ⟨(u, v), List.mem_append_right _ (by simp), hsl⟩
          · rw [hbset_ne i hij] at hsl
            obtain ⟨p, hpE, hpw⟩ := (hinv.bindMem w' hw').mp ⟨i, hi, hsl⟩
            exact ⟨p, List.mem_append_left _ hpE, hpw⟩
        · rintro ⟨p, hpE', hpw⟩
          rcases List.mem_append.mp hpE' with hpE | hpnew
          · obtain ⟨i, hi, hsl⟩ := (hinv.bindMem w' hw').mpr ⟨p, hpE, hpw⟩
            have hij : i ≠ j := by
              intro he
              rw [he, hz] at hsl
              exact hw' hsl.symm
            refine ⟨i, hi, ?_⟩
            rw [hbset_ne i hij]
            exact hsl
          · have hpeq : p = (u, v) := by simpa using hpnew
            subst hpeq
            refine ⟨j, hj, ?_⟩
            rw [hbset_self]
            exact hpw
      have hBindOnce : ∀ i, i < s.depSize → ∀ i2, i2 < s.depSize →
          slotGet (s.bindings.set j (u * 2147483648 + v)) i ≠ 0 →
          slotGet (s.bindings.set j (u * 2147483648 + v)) i =
            slotGet (s.bindings.set j (u * 2147483648 + v)) i2 → i = i2 := by
        intro i hi i2 hi2 hnz heq
        by_cases hij : i = j
        · by_cases hij2 : i2 = j
          · rw [hij, hij2]
          · subst hij
            rw [hbset_self, hbset_ne i2 hij2] at heq
            exfalso
            obtain ⟨p, hpE, hpw⟩ := (hinv.bindMem _ hw0).mp ⟨i2, hi2, heq.symm⟩
            obtain ⟨q1, q2⟩ := p
            obtain ⟨he1, he2⟩ :=
              comb_inj q1 q2 u v (hinv.edgesValid _ hpE).2.1 hv hpw
            subst he1
            subst he2
            exact hnotin hpE
        · by_cases hij2 : i2 = j
          · subst hij2
            rw [hbset_ne i hij, hbset_self] at heq
            exfalso
            obtain ⟨p, hpE, hpw⟩ := (hinv.bindMem _ hw0).mp ⟨i, hi, heq⟩
            obtain ⟨q1, q2⟩ := p
            obtain ⟨he1, he2⟩ :=
              comb_inj q1 q2 u v (hinv.edgesValid _ hpE).2.1 hv hpw
            subst he1
            subst he2
            exact hnotin hpE
          · rw [hbset_ne i hij] at hnz heq
            rw [hbset_ne i2 hij2] at heq
            exact hinv.bindAtMostOnce i hi i2 hi2 hnz heq
      have hBindPath : ∀ j', j' < s.depSize →
          slotGet (s.bindings.set j (u * 2147483648 + v)) j' ≠ 0 →
          ProbePath (s.bindings.set j (u * 2147483648 + v)) s.depSize
            (hash_uint64 (slotGet (s.bindings.set j (u * 2147483648 + v)) j')
              % s.depSize) j' := by
        intro j' hj' hnz'
        by_cases hjj : j' = j
        · subst hjj
          rw [hbset_self]
          refine ⟨t, by omega, hjdef.symm, ?_⟩
          intro t' ht'
          exact slotGet_set_mono _ _ _ hw0 _ (hpath t' ht').1
        · rw [hbset_ne j' hjj] at hnz' ⊢
          exact probePath_mono _ _ _ _ _ (slotGet_set_mono _ _ _ hw0)
            (hinv.bindPath j' hj' hnz')
      have hLenB : (s.bindings.set j (u * 2147483648 + v)).length = s.depSize := by
        rw [List.length_set]
        exact hinv.lenB
      have hDcount : s.dcounter + 1 = (E ++ [(u, v)]).length := by
        rw [List.length_append, hinv.dcount]
        rfl
      have hValid : ∀ p ∈ E ++ [(u, v)], p.1 < 2147483648 ∧ p.2 < 2147483648 ∧
          p ≠ ((0 : Nat), (0 : Nat)) := by
        intro p hp2
        rcases List.mem_append.mp hp2 with h | h
        · exact hinv.edgesValid p h
        · have hpeq : p = (u, v) := by simpa using h
          subst hpeq
          exact ⟨hu, hv, hpne⟩
      have hCombN : ((E ++ [(u, v)]).map
          (fun p => p.1 * 2147483648 + p.2)).Nodup := by
        rw [List.map_append, List.nodup_append]
        refine ⟨hinv.combNodup, by simp, ?_⟩
        intro a ha hb
        simp only [List.map_cons, List.map_nil, List.mem_singleton] at hb
        subst hb
        obtain ⟨p, hpE, hpw⟩ := List.mem_map.mp ha
        obtain ⟨q1, q2⟩ := p
        obtain ⟨he1, he2⟩ := comb_inj q1 q2 u v (hinv.edgesValid _ hpE).2.1 hv hpw
        subst he1
        subst he2
        exact hnotin hpE
      have hmemE' : ∀ p, p ∈ E ++ [(u, v)] ↔
          (p ∈ E ∨ (p = (u, v) ∧ p ≠ ((0 : Nat), (0 : Nat)))) := by
        intro p
        constructor
        · intro hp2
          rcases List.mem_append.mp hp2 with h | h
          · exact Or.inl h
          · have hpeq : p = (u, v) := by simpa using h
            subst hpeq
            exact Or.inr ⟨rfl, hpne⟩
        · rintro (h | ⟨h1, _⟩)
          · exact List.mem_append_left _ h
          · subst h1
            exact List.mem_append_right _ (by simp)
      unfold prepend_to_deptbl_list at hrun
      dsimp only at hrun
      cases hp : prepend_loop s.depSize u v s.depSize (hash_uint64 u % s.depSize)
          s.deptbl with
      | error e => rw [hp] at hrun; simp at hrun
      | ok dtp =>
        rw [hp] at hrun
        dsimp only at hrun
        cases hrun
        obtain ⟨G, hG⟩ := hinv.deptblOK
        obtain ⟨tp, htp, hppath, hout⟩ := prepend_loop_run s.depSize u v s.depSize
          (hash_uint64 u % s.depSize) s.deptbl dtp (Nat.mod_lt _ hinv.sizePos) hp
        rcases hout with ⟨hz2, hdt⟩ | ⟨hnz2, hknum, hktag, ls, hls, hlz, hdt⟩
        · cases hGu : G u with
          | some g =>
            exact (no_zero_stop s.depSize s.deptbl E G u g tp hG hGu hz2
              hppath).elim
          | none =>
            subst hdt
            have hdg := deptblG_insert_new s.depSize s.deptbl E G u v
              ((hash_uint64 u % s.depSize + tp) % s.depSize) hG hinv.lenD hu hv
              hGu (Nat.mod_lt _ hinv.sizePos) hz2
              ⟨tp, htp, rfl, fun t' ht' => (hppath t' ht').1⟩
            have hLenD : (s.deptbl.set
                ((hash_uint64 u % s.depSize + tp) % s.depSize)
                (mkDepEntry u 1 v 0)).length = s.depSize := by
              rw [List.length_set]
              exact hinv.lenD
            exact ⟨E ++ [(u, v)],
              ⟨hinv.sizePos, hinv.sizeLe, hLenB, hLenD, hDcount, hValid, hCombN,
                hBindMem, hBindOnce, hBindPath, ⟨_, hdg⟩⟩, hmemE'⟩
        · obtain ⟨g, hGu, hghead⟩ := match_slot_is_head s.depSize s.deptbl E G u
            ((hash_uint64 u % s.depSize + tp) % s.depSize) hG
            (Nat.mod_lt _ hinv.sizePos) hnz2 hknum hktag
          rw [← hghead] at hdt
          subst hdt
          have hdg := deptblG_insert_cell s.depSize s.deptbl E G u v ls g hG
            hinv.lenD hinv.sizeLe hu hv hGu hnotin hls hlz
          have hLenD : ((s.deptbl.set ls (mkDepEntry v 0
              (depNextNum (slotGet s.deptbl g.headSlot))
              (depNextTag (slotGet s.deptbl g.headSlot)))).set g.headSlot
              (mkDepEntry u 1 ls 1)).length = s.depSize := by
            rw [List.length_set, List.length_set]
            exact hinv.lenD
          exact ⟨E ++ [(u, v)],
            ⟨hinv.sizePos, hinv.sizeLe, hLenB, hLenD, hDcount, hValid, hCombN,
              hBindMem, hBindOnce, hBindPath, ⟨_, hdg⟩⟩, hmemE'⟩

theorem depInv_init (k : Nat) (hk : k ≤ 31) : DepInv (depInit k) [] := by
  have h31 : (2 : Nat) ^ 31 = 2147483648 := by norm_num
  refine ⟨?_, ?_, ?_, ?_, rfl, ?_, ?_, ?_, ?_, ?_, ?_⟩
  · exact Nat.pos_pow_of_pos k (by norm_num)
  · show (2 : Nat) ^ k ≤ 2147483648
    rw [← h31]
    exact Nat.pow_le_pow_right (by norm_num) hk
  · simp [depInit]
  · simp [depInit]
  · intro p hp
    simp at hp
  · simp
  · intro w hw
    constructor
    · rintro ⟨i, hi, hsl⟩
      rw [show (depInit k).bindings = List.replicate (2 ^ k) 0 from rfl,
        slotGet_replicate] at hsl
      exact absurd hsl.symm hw
    · rintro ⟨p, hp, _⟩
      simp at hp
  · intro i hi i2 hi2 hnz
    rw [show (depInit k).bindings = List.replicate (2 ^ k) 0 from rfl,
      slotGet_replicate] at hnz
    exact absurd rfl hnz
  · intro j hj hnz
    rw [show (depInit k).bindings = List.replicate (2 ^ k) 0 from rfl,
      slotGet_replicate] at hnz
    exact absurd rfl hnz
  · refine ⟨fun _ => none, ?_, ?_, ?_, ?_, ?_, ?_, ?_, ?_, ?_, ?_, ?_, ?_⟩
    · intro u
      simp
    · intro u g hg
      simp at hg
    · intro u g hg
      simp at hg
    · intro u g hg
      simp at hg
    · intro u g hg
      simp at hg
    · intro u g hg
      simp at hg
    · intro u g hg
      simp at hg
    · intro u g hg
      simp at hg
    · intro u u' g g' _ hg
      simp at hg
    · intro u g hg
      simp at hg
    · intro i hi hnz
      rw [show (depInit k).deptbl = List.replicate (2 ^ k) 0 from rfl,
        slotGet_replicate] at hnz
      exact absurd rfl hnz
    · intro u g hg
      simp at hg

theorem hh_get_dep_exact (s : DepState) (E : List (Nat × Nat)) (u : Nat)
    (l : List Nat) (hinv : DepInv s E) (hget : hh_get_dep s u = .ok l) :
    (∀ v, v ∈ l ↔ (u, v) ∈ E) ∧ l.Nodup := by
  unfold hh_get_dep at hget
  cases hx : depCheckShouldExit s with
  | error e => rw [hx] at hget; simp at hget
  | ok uu =>
    rw [hx] at hget
    dsimp only at hget
    by_cases hu31 : u < 2147483648
    · rw [if_pos hu31] at hget
      obtain ⟨G, hG⟩ := hinv.deptblOK
      obtain ⟨t, ht, hpath, hout⟩ := hh_get_dep_loop_run s.depSize u s.deptbl
        s.depSize (hash_uint64 u % s.depSize) l (Nat.mod_lt _ hinv.sizePos) hget
      rcases hout with ⟨hz, hl⟩ | ⟨hnz, hknum, hktag, hwalk⟩
      · subst hl
        cases hGu : G u with
        | some g =>
          exact (no_zero_stop s.depSize s.deptbl E G u g t hG hGu hz hpath).elim
        | none =>
          refine ⟨?_, List.nodup_nil⟩
          intro v
          simp only [List.not_mem_nil, false_iff]
          intro hin
          have hsome := (hG.keysMem u).mpr ⟨v, hin⟩
          rw [hGu] at hsome
          simp at hsome
      · obtain ⟨g, hGu, hghead⟩ := match_slot_is_head s.depSize s.deptbl E G u
          ((hash_uint64 u % s.depSize + t) % s.depSize) hG
          (Nat.mod_lt _ hinv.sizePos) hnz hknum hktag
        rw [← hghead] at hwalk
        have hcellslt := hG.cellsLt u g hGu
        have hsn := hG.slotsNodup u g hGu
        have hfuel : g.cells.length < s.depSize := by
          have hlen2 : (g.headSlot :: g.cells).length ≤ s.depSize := by
            refine nodup_lt_length_le _ _ hsn ?_
            intro x hx2
            rcases List.mem_cons.mp hx2 with he | hm
            · rw [he]
              exact hG.headLt u g hGu
            · exact hcellslt x hm
          simp at hlen2
          omega
        have hwok := dep_walk_loop_ok s.depSize s.deptbl g.cells
          (depNextNum (slotGet s.deptbl g.headSlot))
          (depNextTag (slotGet s.deptbl g.headSlot)) g.vals
          (slotGet s.deptbl g.headSlot) [] s.depSize
          (hG.chain u g hGu) hcellslt rfl rfl hfuel
        rw [hwok] at hwalk
        injection hwalk with hl
        have hl2 : l = g.vals.reverse := by
          rw [← hl, List.append_nil]
        subst hl2
        constructor
        · intro v
          rw [List.mem_reverse]
          exact hG.valsMem u g hGu v
        · rw [List.nodup_reverse]
          exact hG.valsNodup u g hGu
    · rw [if_neg hu31] at hget
      simp at hget

theorem runAddEdges_inv (ops : List (Nat × Nat)) :
    ∀ (s s' : DepState) (E : List (Nat × Nat)), DepInv s E →
    runAddEdges s ops = .ok s' →
    ∃ E', DepInv s' E' ∧
      ∀ p, p ∈ E' ↔ (p ∈ E ∨ (p ∈ ops ∧ p ≠ ((0 : Nat), (0 : Nat)))) := by
  induction ops with
  | nil =>
    intro s s' E hinv hrun
    simp only [runAddEdges] at hrun
    cases hrun
    exact ⟨E, hinv, fun p => by simp⟩
  | cons q rest ih =>
    intro s s' E hinv hrun
    obtain ⟨qu, qv⟩ := q
    simp only [runAddEdges] at hrun
    cases h1 : hh_add_dep s qu qv with
    | error e => rw [h1] at hrun; simp at hrun
    | ok s1 =>
      rw [h1] at hrun
      dsimp only at hrun
      obtain ⟨E1, hinv1, hmem1⟩ := hh_add_dep_preserves s s1 E qu qv hinv h1
      obtain ⟨E', hinv', hmem'⟩ := ih s1 s' E1 hinv1 hrun
      refine ⟨E', hinv', ?_⟩
      intro p
      rw [hmem' p, hmem1 p]
      constructor
      · rintro ((hp | ⟨hpq, hpne⟩) | ⟨hpr, hpne⟩)
        · exact Or.inl hp
        · refine Or.inr ⟨?_, hpne⟩
          rw [hpq]
          exact List.mem_cons_self _ _
        · exact Or.inr ⟨List.mem_cons_of_mem _ hpr, hpne⟩
      · rintro (hp | ⟨hpm, hpne⟩)
        · exact Or.inl (Or.inl hp)
        · rcases List.mem_cons.mp hpm with he | hm
          · exact Or.inl (Or.inr ⟨he, hpne⟩)
          · exact Or.inr ⟨hm, hpne⟩

/-- C2 (amended): sequential `add_edge` calls followed by `get_edges(u)`
return exactly the distinct values added under `u` — except that the edge
`(0, 0)` is silently dropped: its combined bindings word is `0`, the
empty-slot marker, so the duplicate check sees it as already present (see
the counterexample).  The returned list never holds duplicates.  In
particular `add_edge(1,2); add_edge(1,3); add_edge(1,4)` gives
`get_edges(1) = [2, 3, 4]` (already sorted) and `dcounter = 3`. -/
theorem add_edges_get_exact (k : Nat) (ops : List (Nat × Nat))
    (s : DepState) (u : Nat) (l : List Nat)
    (hk : k ≤ 31)
    (hrun : runAddEdges (depInit k) ops = .ok s)
    (hget : hh_get_dep s u = .ok l) :
    ((∀ v, v ∈ l ↔ ((u, v) ∈ ops ∧ (u, v) ≠ ((0 : Nat), (0 : Nat)))) ∧
      l.Nodup) ∧
    ((runAddEdges (depInit 4) [(1, 2), (1, 3), (1, 4)]).map
      (fun s2 => (hh_get_dep s2 1, s2.dcounter)) = .ok (.ok [2, 3, 4], 3)) := by
  refine ⟨?_, by rfl⟩
  obtain ⟨E', hinv', hmem'⟩ := runAddEdges_inv ops (depInit k) s []
    (depInv_init k hk) hrun
  obtain ⟨hiff, hnd⟩ := hh_get_dep_exact s E' u l hinv' hget
  refine ⟨?_, hnd⟩
  intro v
  rw [hiff v, hmem' (u, v)]
  simp

/-- C2 witness: the theorem applied to
`add_edge(1,2); add_edge(1,3); add_edge(1,4)` on a fresh 16-slot table,
reading back key 1. -/
theorem add_edges_get_exact_witness :
    ((∀ v, v ∈ ((hh_get_dep ((runAddEdges (depInit 4)
        [(1, 2), (1, 3), (1, 4)]).toOption.getD (depInit 0)) 1).toOption.getD [])
      ↔ (((1 : Nat), v) ∈ [((1 : Nat), (2 : Nat)), (1, 3), (1, 4)] ∧
        ((1 : Nat), v) ≠ ((0 : Nat), (0 : Nat)))) ∧
      ((hh_get_dep ((runAddEdges (depInit 4)
        [(1, 2), (1, 3), (1, 4)]).toOption.getD (depInit 0)) 1).toOption.getD
        ([] : List Nat)).Nodup) ∧
    ((runAddEdges (depInit 4) [(1, 2), (1, 3), (1, 4)]).map
      (fun s2 => (hh_get_dep s2 1, s2.dcounter)) = .ok (.ok [2, 3, 4], 3)) :=
  add_edges_get_exact 4 [(1, 2), (1, 3), (1, 4)]
    ((runAddEdges (depInit 4) [(1, 2), (1, 3), (1, 4)]).toOption.getD (depInit 0))
    1
    ((hh_get_dep ((runAddEdges (depInit 4)
      [(1, 2), (1, 3), (1, 4)]).toOption.getD (depInit 0)) 1).toOption.getD [])
    (by omega) rfl rfl

/-- C2 counterexample: `add_edge(0, 0)` returns normally but records
nothing — the combined word `0 << 31 | 0` equals the empty-slot marker of
the bindings filter, so the probe reports "duplicate" on the first free
slot and the adjacency store is never touched.  A subsequent
`get_edges(0)` returns `[]`, not the added value `0`: the spec's "exactly
the set of values v that were added" fails for the edge `(0, 0)`. -/
theorem add_edges_get_exact_cex :
    runAddEdges (depInit 3) [((0 : Nat), (0 : Nat))] = .ok (depInit 3) ∧
    hh_get_dep (depInit 3) 0 = .ok [] ∧
    ¬(((0 : Nat) ∈ ([] : List Nat)) ↔ ((0, 0) ∈ [((0 : Nat), (0 : Nat))])) := by
  refine ⟨rfl, rfl, by decide⟩
end HhShared
